import Mathlib

/-!
# Verification of the or-tools finite-domain CP solver core

Shallow embedding, in Lean 4, of the parts of the constraint-programming
solver that the specification's testable properties talk about:

* the tree-structured `SumConstraint` and its saturating `SafeSumConstraint`
  variant (`src/trunk/src/constraint_solver/expr_array.cc`);
* the boolean array aggregators `ArrayBoolAndEq` / `ArrayBoolOrEq`;
* the positive boolean scalar product `PositiveBooleanScalProdEqVar`;
* the non-overlapping-rectangles constraint `Diffn`
  (`src/src/constraint_solver/diffn.cc`);
* the assignment snapshot save/load protocol
  (`src/constraint_solver/assignment.cc`);
* the `MakeMax` factory together with the model cache;
* the interval variables `FixedDurationIntervalVar` and
  `VariableDurationIntervalVar`.

Machine `int64` values are embedded as `Int`; the saturating operations
`CapAdd`/`CapSub` clamp explicitly at the `int64` sentinels, exactly as
the specification describes them.  Fallible operations (anything that may
call `Solver::Fail` or hit a fatal `CHECK`) return `Option`.
-/

namespace OrTools

/-- `kint64max` from `base/integral_types.h`: the largest signed 64-bit value. -/
def kint64max : Int := 2 ^ 63 - 1

/-- `kint64min` from `base/integral_types.h`: the smallest signed 64-bit value. -/
def kint64min : Int := -(2 ^ 63)

/-- Modelled from the spec: saturating 64-bit addition (`CapAdd` is declared in
the solver's utility headers, which are not among the sources here).  Per the
spec's saturating-arithmetic laws, a sum overflowing positive yields the `MAX`
sentinel, a sum overflowing negative yields `MIN`, and otherwise the exact sum
is returned. -/
def CapAdd (a b : Int) : Int :=
  if a + b > kint64max then kint64max
  else if a + b < kint64min then kint64min
  else a + b

/-- Modelled from the spec: saturating 64-bit subtraction, clamping at the
`int64` sentinels exactly like `CapAdd`. -/
def CapSub (a b : Int) : Int :=
  if a - b > kint64max then kint64max
  else if a - b < kint64min then kint64min
  else a - b

/-- The reversible bounds `[lo, hi]` of one integer variable (the pair
`min_`/`max_` of a `DomainIntVar`, or the `node_min`/`node_max` pair of a
`TreeArrayConstraint::NodeInfo`). -/
structure Dom where
  lo : Int
  hi : Int
  deriving DecidableEq, Repr

/-- A domain is well formed when its bounds are ordered. -/
def Dom.wf (d : Dom) : Prop := d.lo ≤ d.hi

instance (d : Dom) : Decidable d.wf := by unfold Dom.wf; infer_instance

/-- Modelled from the spec: `IntVar::SetRange(mi, ma)` (the integer-variable
setters live in `constraint_solver.cc`, not among the sources here).  Per the
spec's setter protocol, a new range that misses the current domain fails;
otherwise the domain is intersected with `[mi, ma]`. -/
def setRange (d : Dom) (mi ma : Int) : Option Dom :=
  if mi > ma ∨ mi > d.hi ∨ ma < d.lo then none
  else some ⟨max d.lo mi, min d.hi ma⟩

/-- Modelled from the spec: `IntVar::SetMin(m)`. -/
def setMin (d : Dom) (m : Int) : Option Dom :=
  if m > d.hi then none
  else some ⟨max d.lo m, d.hi⟩

/-- Modelled from the spec: `IntVar::SetMax(m)`. -/
def setMax (d : Dom) (m : Int) : Option Dom :=
  if m < d.lo then none
  else some ⟨d.lo, min d.hi m⟩

/-- Apply a fallible per-variable update to every variable of an array, the
way the constraints' `for` loops do: the first failure aborts. -/
def mapOpt (f : Dom → Option Dom) : List Dom → Option (List Dom)
  | [] => some []
  | d :: ds =>
    match f d, mapOpt f ds with
    | some d', some ds' => some (d' :: ds')
    | _, _ => none

theorem mapOpt_congr {f g : Dom → Option Dom} :
    ∀ {ds : List Dom}, (∀ d ∈ ds, f d = g d) → mapOpt f ds = mapOpt g ds
  | [], _ => rfl
  | d :: ds, h => by
    have hd : f d = g d := h d (List.mem_cons_self d ds)
    have ht : mapOpt f ds = mapOpt g ds :=
      mapOpt_congr fun x hx => h x (List.mem_cons_of_mem d hx)
    simp only [mapOpt, hd, ht]

theorem mapOpt_eq_self {f : Dom → Option Dom} :
    ∀ {ds : List Dom}, mapOpt f ds = some ds → ∀ d ∈ ds, f d = some d := by
  intro ds
  induction ds with
  | nil => intro _ d hd; cases hd
  | cons a as ih =>
    intro h d hd
    simp only [mapOpt] at h
    cases hfa : f a with
    | none => rw [hfa] at h; simp at h
    | some a' =>
      rw [hfa] at h
      cases hrest : mapOpt f as with
      | none => rw [hrest] at h; simp at h
      | some as' =>
        rw [hrest] at h
        simp only [Option.some.injEq, List.cons.injEq] at h
        rcases h with ⟨ha, has⟩
        rcases List.mem_cons.mp hd with h1 | h2
        · subst h1; rw [hfa, ha]
        · exact ih (by rw [hrest, has]) d h2

/-!
## SumConstraint (`expr_array.cc`, lines 178–317)

For an array of at most `array_split_size` (64) variables the constraint's
tree has exactly two levels: the root at depth 0 and one leaf per variable at
depth 1, so the root's `node_min`/`node_max` are the plain sums of the
variables' bounds and `PushDown` recurses exactly once, from the root
directly into the leaf variables.  The embedding below is that instance of
the code, written for an arbitrary list of variables.
-/

/-- Root `node_min` after `SumConstraint::InitialPropagate`'s compute-up pass:
the sum of the leaves' minima. -/
def rootMin (vs : List Dom) : Int := (vs.map Dom.lo).sum

/-- Root `node_max` after `SumConstraint::InitialPropagate`'s compute-up pass:
the sum of the leaves' maxima. -/
def rootMax (vs : List Dom) : Int := (vs.map Dom.hi).sum

/-- The per-child body of `SumConstraint::PushDown` (lines 278–284) followed by
the recursive call at leaf depth (lines 249–257): compute the residual bounds,
return if there is nothing to do, otherwise `SetRange` the leaf variable. -/
def pushDownLeaf (sumMin sumMax newMin newMax : Int) (d : Dom) : Option Dom :=
  let residualMin := sumMin - d.lo
  let residualMax := sumMax - d.hi
  let mi := newMin - residualMax
  let ma := newMax - residualMin
  if mi ≤ d.lo ∧ ma ≥ d.hi then some d
  else setRange d mi ma

/-- `SumConstraint::PushDown(0, 0, T.min, T.max)` on the two-level tree:
the root's "nothing to do" check, the intersection with the root bounds, the
early failure detection, and the push into every leaf. -/
def pushDown (vs : List Dom) (T : Dom) : Option (List Dom) :=
  let sumMin := rootMin vs
  let sumMax := rootMax vs
  if T.lo ≤ sumMin ∧ T.hi ≥ sumMax then some vs
  else
    let newMax := min sumMax T.hi
    let newMin := max sumMin T.lo
    if newMax < sumMin ∨ newMin > sumMax then none
    else mapOpt (pushDownLeaf sumMin sumMax newMin newMax) vs

/-- `SumConstraint::SumChanged` (lines 230–245): snap all terms to their
minimum when the target's max equals the root min (and is not the `int64`
max sentinel), symmetrically for the other extreme, otherwise push down. -/
def sumChanged (vs : List Dom) (T : Dom) : Option (List Dom) :=
  if T.hi = rootMin vs ∧ T.hi ≠ kint64max then
    mapOpt (fun d => setRange d d.lo d.lo) vs
  else if T.lo = rootMax vs ∧ T.lo ≠ kint64min then
    mapOpt (fun d => setRange d d.hi d.hi) vs
  else pushDown vs T

/-- One round of `SumConstraint::InitialPropagate` (lines 204–228) on the
two-level tree: initialise the leaves and the root from the variables,
tighten the target to the root range, then `SumChanged`.  Running it from a
state it maps to itself is the propagation fixpoint of the constraint. -/
def sumPropagateOnce (vs : List Dom) (T : Dom) : Option (List Dom × Dom) :=
  match setRange T (rootMin vs) (rootMax vs) with
  | none => none
  | some T1 =>
    match sumChanged vs T1 with
    | none => none
    | some vs1 => some (vs1, T1)

theorem rootMin_le_rootMax {vs : List Dom} (hwf : ∀ d ∈ vs, d.wf) :
    rootMin vs ≤ rootMax vs := by
  induction vs with
  | nil => simp [rootMin, rootMax]
  | cons a as ih =>
    have ha : a.lo ≤ a.hi := hwf a (List.mem_cons_self a as)
    have ht := ih fun d hd => hwf d (List.mem_cons_of_mem a hd)
    simp only [rootMin, rootMax, List.map_cons, List.sum_cons] at *
    omega

theorem rootMin_sub_add_le {vs : List Dom} (hwf : ∀ d ∈ vs, d.wf) :
    ∀ d ∈ vs, rootMin vs - d.lo + d.hi ≤ rootMax vs := by
  induction vs with
  | nil => intro d hd; cases hd
  | cons a as ih =>
    intro d hd
    have ha : a.lo ≤ a.hi := hwf a (List.mem_cons_self a as)
    have hwt : ∀ x ∈ as, x.wf := fun x hx => hwf x (List.mem_cons_of_mem a hx)
    have hmm : rootMin as ≤ rootMax as := rootMin_le_rootMax hwt
    rcases List.mem_cons.mp hd with h1 | h2
    · subst h1
      simp only [rootMin, rootMax, List.map_cons, List.sum_cons] at hmm ⊢
      omega
    · have := ih hwt d h2
      simp only [rootMin, rootMax, List.map_cons, List.sum_cons] at *
      omega

theorem rootMin_eq_rootMax {vs : List Dom} (hb : ∀ d ∈ vs, d.lo = d.hi) :
    rootMin vs = rootMax vs := by
  induction vs with
  | nil => rfl
  | cons a as ih =>
    have ha : a.lo = a.hi := hb a (List.mem_cons_self a as)
    have ht := ih fun d hd => hb d (List.mem_cons_of_mem a hd)
    simp only [rootMin, rootMax, List.map_cons, List.sum_cons] at *
    omega

/-- C1, counterexample.  The claim demands `T.min = Σ vᵢ.min` at every
propagation fixpoint of the Sum constraint.  The state with three variables
in `[0, 10]` and target `[5, 30]` is a fixpoint of `SumConstraint`'s
propagation that does not fail, yet the target's min (5) differs from the
sum of the variables' minima (0): the constraint only intersects the target
with the root range and never forces it down to the exact sum. -/
theorem sum_tree_claim_counterexample :
    sumPropagateOnce [⟨0, 10⟩, ⟨0, 10⟩, ⟨0, 10⟩] ⟨5, 30⟩
        = some ([⟨0, 10⟩, ⟨0, 10⟩, ⟨0, 10⟩], ⟨5, 30⟩)
      ∧ (⟨5, 30⟩ : Dom).lo ≠ rootMin [⟨0, 10⟩, ⟨0, 10⟩, ⟨0, 10⟩] := by
  constructor
  · decide
  · decide

/-- C1, amended.  At every propagation fixpoint of the tree Sum constraint
(without failure) the target's bounds lie within the root sums,
`Σ vᵢ.min ≤ T.min` and `T.max ≤ Σ vᵢ.max` (equality is not guaranteed), and
after the target's max has been set to `M` (so `T.max ≤ M`), every variable
satisfies `vᵢ.max ≤ M − Σ_{j ≠ i} vⱼ.min`. -/
theorem sum_tree_fixpoint_bounds (vs : List Dom) (T : Dom) (M : Int)
    (hwf : ∀ d ∈ vs, d.wf) (hTwf : T.wf)
    (hfix : sumPropagateOnce vs T = some (vs, T)) (hM : T.hi ≤ M) :
    rootMin vs ≤ T.lo ∧ T.hi ≤ rootMax vs ∧
      ∀ d ∈ vs, d.hi ≤ M - (rootMin vs - d.lo) := by
  obtain ⟨Tlo, Thi⟩ := T
  unfold sumPropagateOnce at hfix
  cases hsr : setRange ⟨Tlo, Thi⟩ (rootMin vs) (rootMax vs) with
  | none => rw [hsr] at hfix; exact absurd hfix (by simp)
  | some T1 => ?_
  rw [hsr] at hfix
  dsimp only at hfix
  cases hsc : sumChanged vs T1 with
  | none => rw [hsc] at hfix; exact absurd hfix (by simp)
  | some vs1 => ?_
  rw [hsc] at hfix
  dsimp only at hfix
  simp only [Option.some.injEq, Prod.mk.injEq] at hfix
  obtain ⟨hveq, hTeq⟩ := hfix
  subst hTeq
  rw [hveq] at hsc
  have hT1 := hsr
  have hvs1 := hsc
  unfold setRange at hT1
  split at hT1
  · exact absurd hT1 (by simp)
  · rename_i hcond
    simp only [Option.some.injEq, Dom.mk.injEq] at hT1
    obtain ⟨hlo, hhi⟩ := hT1
    have hA1 : rootMin vs ≤ Tlo := max_eq_left_iff.mp hlo
    have hA2 : Thi ≤ rootMax vs := min_eq_left_iff.mp hhi
    have hM2 : Thi ≤ M := hM
    have hTw : Tlo ≤ Thi := hTwf
    refine ⟨hA1, hA2, ?_⟩
    unfold sumChanged at hvs1
    split at hvs1
    · -- target max equals the root min: all terms snapped to their minimum
      rename_i hb1
      have hb1a : Thi = rootMin vs := hb1.1
      intro d hd
      have hself := mapOpt_eq_self hvs1 d hd
      have hdw : d.lo ≤ d.hi := hwf d hd
      unfold setRange at hself
      split at hself
      · exact absurd hself (by simp)
      · simp only [Option.some.injEq] at hself
        have h2 : d.hi ⊓ d.lo = d.hi := congrArg Dom.hi hself
        have hle : d.hi ≤ d.lo := min_eq_left_iff.mp h2
        omega
    · split at hvs1
      · -- target min equals the root max: all terms snapped to their maximum
        rename_i hb1 hb2
        have hb2a : Tlo = rootMax vs := hb2.1
        have hall : ∀ d ∈ vs, d.lo = d.hi := by
          intro d hd
          have hself := mapOpt_eq_self hvs1 d hd
          have hdw : d.lo ≤ d.hi := hwf d hd
          unfold setRange at hself
          split at hself
          · exact absurd hself (by simp)
          · simp only [Option.some.injEq] at hself
            have h2 : d.lo ⊔ d.hi = d.lo := congrArg Dom.lo hself
            have hle : d.hi ≤ d.lo := max_eq_left_iff.mp h2
            omega
        have heq := rootMin_eq_rootMax hall
        intro d hd
        have hdw : d.lo ≤ d.hi := hwf d hd
        have hd2 : d.lo = d.hi := hall d hd
        omega
      · -- general push-down from the target into the leaves
        rename_i hb1 hb2
        simp only [pushDown] at hvs1
        split at hvs1
        · rename_i hroot
          have hroot2 : rootMax vs ≤ Thi := hroot.2
          intro d hd
          have := rootMin_sub_add_le hwf d hd
          omega
        · rename_i hroot
          split at hvs1
          · exact absurd hvs1 (by simp)
          · rename_i hfail
            intro d hd
            have hself := mapOpt_eq_self hvs1 d hd
            have hdw : d.lo ≤ d.hi := hwf d hd
            have hmr : rootMax vs ⊓ Thi ≤ Thi := min_le_right _ _
            simp only [pushDownLeaf] at hself
            split at hself
            · -- nothing to do at this leaf
              rename_i hskip
              have hskip2 : d.hi ≤ rootMax vs ⊓ Thi - (rootMin vs - d.lo) :=
                hskip.2
              omega
            · rename_i hskip
              unfold setRange at hself
              split at hself
              · exact absurd hself (by simp)
              · simp only [Option.some.injEq] at hself
                have h2 : d.hi ⊓ (rootMax vs ⊓ Thi - (rootMin vs - d.lo)) = d.hi :=
                  congrArg Dom.hi hself
                have hle := min_eq_left_iff.mp h2
                omega

/-- C1, witness for `sum_tree_fixpoint_bounds` at the concrete fixpoint with
three variables in `[0, 10]` and target `[5, 30]`, `M = 30`. -/
theorem sum_tree_fixpoint_bounds_witness :
    sumPropagateOnce [⟨0, 10⟩, ⟨0, 10⟩, ⟨0, 10⟩] ⟨5, 30⟩
        = some ([⟨0, 10⟩, ⟨0, 10⟩, ⟨0, 10⟩], ⟨5, 30⟩)
      ∧ (rootMin [⟨0, 10⟩, ⟨0, 10⟩, ⟨0, 10⟩] ≤ (⟨5, 30⟩ : Dom).lo ∧
          (⟨5, 30⟩ : Dom).hi ≤ rootMax [⟨0, 10⟩, ⟨0, 10⟩, ⟨0, 10⟩] ∧
          ∀ d ∈ [(⟨0, 10⟩ : Dom), ⟨0, 10⟩, ⟨0, 10⟩],
            d.hi ≤ 30 - (rootMin [(⟨0, 10⟩ : Dom), ⟨0, 10⟩, ⟨0, 10⟩] - d.lo)) :=
  ⟨by decide,
   sum_tree_fixpoint_bounds [⟨0, 10⟩, ⟨0, 10⟩, ⟨0, 10⟩] ⟨5, 30⟩ 30
     (by decide) (by decide) (by decide) (by decide)⟩

/-!
## SafeSumConstraint (`expr_array.cc`, lines 319–521)

The saturating variant of the Sum constraint, again embedded for the
two-level tree (at most `array_split_size` variables), where the root is
recomputed directly from the leaf variables.
-/

/-- `DetectSumOverflow` (lines 321–332): scan the variables accumulating the
saturating sums of minima and maxima; report overflow as soon as either
running sum reaches a sentinel. -/
def DetectSumOverflow : List Dom → Int → Int → Bool
  | [], _, _ => false
  | d :: ds, sumMin, sumMax =>
    let sm := CapAdd sumMin d.lo
    let sx := CapAdd sumMax d.hi
    if sm = kint64min ∨ sx = kint64max then true
    else DetectSumOverflow ds sm sx

/-- `SafeSumConstraint::SafeComputeNode` (lines 361–379): recompute a node's
bounds from its children with saturating additions, skipping a running sum
that has already saturated and stopping early once both have. -/
def SafeComputeNode : List Dom → Int → Int → Int × Int
  | [], sumMin, sumMax => (sumMin, sumMax)
  | d :: ds, sumMin, sumMax =>
    let sm := if sumMin ≠ kint64min then CapAdd sumMin d.lo else sumMin
    let sx := if sumMax ≠ kint64max then CapAdd sumMax d.hi else sumMax
    if sm = kint64min ∧ sx = kint64max then (sm, sx)
    else SafeComputeNode ds sm sx

/-- The per-child body of `SafeSumConstraint::PushDown` (lines 446–466)
followed by the recursive call at leaf depth: saturating residuals with the
sentinel special cases exactly as written in the source. -/
def safePushDownLeaf (sumMin sumMax newMin newMax : Int) (d : Dom) : Option Dom :=
  let residualMin := if sumMin ≠ kint64min then CapSub sumMin d.lo else kint64min
  let residualMax := if sumMax ≠ kint64max then CapSub sumMax d.hi else kint64max
  let mi := if residualMax = kint64min then kint64min else CapSub newMin residualMax
  let ma := if residualMin = kint64max then kint64min else CapSub newMax residualMin
  if mi ≤ d.lo ∧ ma ≥ d.hi then some d
  else setRange d mi ma

/-- `SafeSumConstraint::PushDown(0, 0, T.min, T.max)` (lines 418–469) on the
two-level tree. -/
def safePushDown (vs : List Dom) (T : Dom) : Option (List Dom) :=
  let sumMin := (SafeComputeNode vs 0 0).1
  let sumMax := (SafeComputeNode vs 0 0).2
  if T.lo ≤ sumMin ∧ T.hi ≥ sumMax then some vs
  else
    let newMax := min sumMax T.hi
    let newMin := max sumMin T.lo
    if newMax < sumMin ∨ newMin > sumMax then none
    else mapOpt (safePushDownLeaf sumMin sumMax newMin newMax) vs

/-- `SafeSumConstraint::SumChanged` (lines 402–416): identical to the plain
version except that the two all-to-extreme branches lack the sentinel
guards. -/
def safeSumChanged (vs : List Dom) (T : Dom) : Option (List Dom) :=
  if T.hi = (SafeComputeNode vs 0 0).1 then
    mapOpt (fun d => setRange d d.lo d.lo) vs
  else if T.lo = (SafeComputeNode vs 0 0).2 then
    mapOpt (fun d => setRange d d.hi d.hi) vs
  else safePushDown vs T

/-- One round of `SafeSumConstraint::InitialPropagate` (lines 381–400) on the
two-level tree, the saturating counterpart of `sumPropagateOnce`. -/
def safeSumPropagateOnce (vs : List Dom) (T : Dom) : Option (List Dom × Dom) :=
  match setRange T (SafeComputeNode vs 0 0).1 (SafeComputeNode vs 0 0).2 with
  | none => none
  | some T1 =>
    match safeSumChanged vs T1 with
    | none => none
    | some vs1 => some (vs1, T1)

theorem kint64max_pos : 0 < kint64max := by unfold kint64max; norm_num

theorem kint64min_eq : kint64min = -kint64max - 1 := by
  unfold kint64min kint64max; ring

theorem CapAdd_eq {a b : Int} (h1 : kint64min ≤ a + b) (h2 : a + b ≤ kint64max) :
    CapAdd a b = a + b := by
  unfold CapAdd
  rw [if_neg (by omega), if_neg (by omega)]

theorem CapSub_eq {a b : Int} (h1 : kint64min ≤ a - b) (h2 : a - b ≤ kint64max) :
    CapSub a b = a - b := by
  unfold CapSub
  rw [if_neg (by omega), if_neg (by omega)]

theorem CapSub_low {a b : Int} (h : a - b < kint64min) : CapSub a b = kint64min := by
  have hk := kint64min_eq
  have hp := kint64max_pos
  unfold CapSub
  rw [if_neg (by omega), if_pos h]

theorem CapSub_high {a b : Int} (h : kint64max < a - b) : CapSub a b = kint64max := by
  unfold CapSub
  rw [if_pos h]

theorem list_sum_le {B : Int} :
    ∀ {xs : List Int}, (∀ x ∈ xs, x ≤ B) → xs.sum ≤ (xs.length : Int) * B := by
  intro xs
  induction xs with
  | nil => simp
  | cons a as ih =>
    intro h
    have ha := h a (List.mem_cons_self a as)
    have ht := ih fun x hx => h x (List.mem_cons_of_mem a hx)
    have hr : ((as.length : Int) + 1) * B = (as.length : Int) * B + B := by ring
    simp only [List.sum_cons, List.length_cons]
    push_cast
    omega

theorem list_sum_ge {B : Int} :
    ∀ {xs : List Int}, (∀ x ∈ xs, -B ≤ x) → -((xs.length : Int) * B) ≤ xs.sum := by
  intro xs
  induction xs with
  | nil => simp
  | cons a as ih =>
    intro h
    have ha := h a (List.mem_cons_self a as)
    have ht := ih fun x hx => h x (List.mem_cons_of_mem a hx)
    have hr : ((as.length : Int) + 1) * B = (as.length : Int) * B + B := by ring
    simp only [List.sum_cons, List.length_cons]
    push_cast
    omega

theorem SafeComputeNode_eq {B : Int} (hB : 0 ≤ B) :
    ∀ (ds : List Dom) (sm sx : Int),
      (∀ d ∈ ds, -B ≤ d.lo ∧ d.lo ≤ B ∧ -B ≤ d.hi ∧ d.hi ≤ B) →
      kint64min < sm - (ds.length : Int) * B →
      sm + (ds.length : Int) * B < kint64max →
      kint64min < sx - (ds.length : Int) * B →
      sx + (ds.length : Int) * B < kint64max →
      SafeComputeNode ds sm sx
        = (sm + (ds.map Dom.lo).sum, sx + (ds.map Dom.hi).sum) := by
  intro ds
  induction ds with
  | nil =>
    intro sm sx _ _ _ _ _
    simp [SafeComputeNode]
  | cons a as ih =>
    intro sm sx h h1 h2 h3 h4
    have ha := h a (List.mem_cons_self a as)
    have hlB : 0 ≤ (as.length : Int) * B := by positivity
    have hr : (((a :: as).length : Int)) * B = (as.length : Int) * B + B := by
      simp only [List.length_cons]; push_cast; ring
    rw [hr] at h1 h2 h3 h4
    clear hr
    obtain ⟨ha1, ha2, ha3, ha4⟩ := ha
    have hup1 : kint64min < sm + a.lo - (as.length : Int) * B := by
      generalize (as.length : Int) * B = S at h1 hlB ⊢; omega
    have hup2 : sm + a.lo + (as.length : Int) * B < kint64max := by
      generalize (as.length : Int) * B = S at h2 hlB ⊢; omega
    have hup3 : kint64min < sx + a.hi - (as.length : Int) * B := by
      generalize (as.length : Int) * B = S at h3 hlB ⊢; omega
    have hup4 : sx + a.hi + (as.length : Int) * B < kint64max := by
      generalize (as.length : Int) * B = S at h4 hlB ⊢; omega
    have hsm : sm ≠ kint64min := by
      generalize (as.length : Int) * B = S at h1 hlB; omega
    have hsx : sx ≠ kint64max := by
      generalize (as.length : Int) * B = S at h4 hlB; omega
    have hca : CapAdd sm a.lo = sm + a.lo := by
      refine CapAdd_eq ?_ ?_ <;>
        (generalize (as.length : Int) * B = S at hup1 hup2 hlB; omega)
    have hcb : CapAdd sx a.hi = sx + a.hi := by
      refine CapAdd_eq ?_ ?_ <;>
        (generalize (as.length : Int) * B = S at hup3 hup4 hlB; omega)
    have hne : ¬(sm + a.lo = kint64min ∧ sx + a.hi = kint64max) := by
      generalize (as.length : Int) * B = S at hup1 hup4 hlB; omega
    have ht := ih (sm + a.lo) (sx + a.hi)
      (fun d hd => h d (List.mem_cons_of_mem a hd)) hup1 hup2 hup3 hup4
    simp only [SafeComputeNode, ne_eq, hsm, not_false_eq_true, if_true, hsx,
      if_true, hca, hcb, if_neg hne, ht, List.map_cons, List.sum_cons]
    simp only [Prod.mk.injEq]
    constructor <;> ring

theorem sum_sub_le {B : Int} :
    ∀ {vs : List Dom}, (∀ d ∈ vs, d.lo ≤ B) →
      ∀ d ∈ vs, rootMin vs - d.lo ≤ ((vs.length : Int) - 1) * B := by
  intro vs
  induction vs with
  | nil => intro _ d hd; cases hd
  | cons a as ih =>
    intro h d hd
    have ha := h a (List.mem_cons_self a as)
    have ht : ∀ x ∈ as, x.lo ≤ B := fun x hx => h x (List.mem_cons_of_mem a hx)
    have hsum0 : (as.map Dom.lo).sum ≤ ((as.map Dom.lo).length : Int) * B := by
      refine list_sum_le ?_
      intro x hx
      obtain ⟨y, hy, hyx⟩ := List.mem_map.mp hx
      exact hyx ▸ ht y hy
    have hsum : (as.map Dom.lo).sum ≤ (as.length : Int) * B := by
      rwa [List.length_map] at hsum0
    have hr : (((a :: as).length : Int) - 1) * B = (as.length : Int) * B := by
      simp only [List.length_cons]; push_cast; ring
    rcases List.mem_cons.mp hd with h1 | h2
    · subst h1
      simp only [rootMin, List.map_cons, List.sum_cons, hr]
      omega
    · have := ih ht d h2
      have hr2 : ((as.length : Int) - 1) * B + B = (as.length : Int) * B := by ring
      simp only [rootMin, List.map_cons, List.sum_cons, hr] at this ⊢
      omega

theorem sum_sub_ge {B : Int} :
    ∀ {vs : List Dom}, (∀ d ∈ vs, -B ≤ d.hi) →
      ∀ d ∈ vs, -(((vs.length : Int) - 1) * B) ≤ rootMax vs - d.hi := by
  intro vs
  induction vs with
  | nil => intro _ d hd; cases hd
  | cons a as ih =>
    intro h d hd
    have ha := h a (List.mem_cons_self a as)
    have ht : ∀ x ∈ as, -B ≤ x.hi := fun x hx => h x (List.mem_cons_of_mem a hx)
    have hsum0 : -(((as.map Dom.hi).length : Int) * B) ≤ (as.map Dom.hi).sum := by
      refine list_sum_ge ?_
      intro x hx
      obtain ⟨y, hy, hyx⟩ := List.mem_map.mp hx
      exact hyx ▸ ht y hy
    have hsum : -((as.length : Int) * B) ≤ (as.map Dom.hi).sum := by
      rwa [List.length_map] at hsum0
    have hr : (((a :: as).length : Int) - 1) * B = (as.length : Int) * B := by
      simp only [List.length_cons]; push_cast; ring
    rcases List.mem_cons.mp hd with h1 | h2
    · subst h1
      simp only [rootMax, List.map_cons, List.sum_cons, hr]
      omega
    · have := ih ht d h2
      have hr2 : ((as.length : Int) - 1) * B + B = (as.length : Int) * B := by ring
      simp only [rootMax, List.map_cons, List.sum_cons, hr] at this ⊢
      omega

theorem rootMin_ge {B : Int} {vs : List Dom} (hb : ∀ d ∈ vs, -B ≤ d.lo) :
    -((vs.length : Int) * B) ≤ rootMin vs := by
  have h0 : -(((vs.map Dom.lo).length : Int) * B) ≤ (vs.map Dom.lo).sum := by
    refine list_sum_ge ?_
    intro x hx
    obtain ⟨y, hy, hyx⟩ := List.mem_map.mp hx
    exact hyx ▸ hb y hy
  rwa [List.length_map] at h0

theorem rootMin_le {B : Int} {vs : List Dom} (hb : ∀ d ∈ vs, d.lo ≤ B) :
    rootMin vs ≤ (vs.length : Int) * B := by
  have h0 : (vs.map Dom.lo).sum ≤ ((vs.map Dom.lo).length : Int) * B := by
    refine list_sum_le ?_
    intro x hx
    obtain ⟨y, hy, hyx⟩ := List.mem_map.mp hx
    exact hyx ▸ hb y hy
  rwa [List.length_map] at h0

theorem rootMax_ge {B : Int} {vs : List Dom} (hb : ∀ d ∈ vs, -B ≤ d.hi) :
    -((vs.length : Int) * B) ≤ rootMax vs := by
  have h0 : -(((vs.map Dom.hi).length : Int) * B) ≤ (vs.map Dom.hi).sum := by
    refine list_sum_ge ?_
    intro x hx
    obtain ⟨y, hy, hyx⟩ := List.mem_map.mp hx
    exact hyx ▸ hb y hy
  rwa [List.length_map] at h0

theorem rootMax_le {B : Int} {vs : List Dom} (hb : ∀ d ∈ vs, d.hi ≤ B) :
    rootMax vs ≤ (vs.length : Int) * B := by
  have h0 : (vs.map Dom.hi).sum ≤ ((vs.map Dom.hi).length : Int) * B := by
    refine list_sum_le ?_
    intro x hx
    obtain ⟨y, hy, hyx⟩ := List.mem_map.mp hx
    exact hyx ▸ hb y hy
  rwa [List.length_map] at h0

/-- Two pairs of pushed bounds lead the leaf update of `PushDown` to the same
result as soon as each differing component lies on the same side of the
leaf's current domain. -/
theorem pushLeaf_cases (d : Dom) {mi1 ma1 mi2 ma2 : Int}
    (hdw : d.lo ≤ d.hi) (h1 : mi1 ≤ ma1) (h2 : mi2 ≤ ma2)
    (hmi : mi1 = mi2 ∨ (mi1 ≤ d.lo ∧ mi2 ≤ d.lo))
    (hma : ma1 = ma2 ∨ (d.hi ≤ ma1 ∧ d.hi ≤ ma2)) :
    (if mi1 ≤ d.lo ∧ ma1 ≥ d.hi then some d else setRange d mi1 ma1)
      = (if mi2 ≤ d.lo ∧ ma2 ≥ d.hi then some d else setRange d mi2 ma2) := by
  have hc : (mi1 ≤ d.lo ∧ ma1 ≥ d.hi) ↔ (mi2 ≤ d.lo ∧ ma2 ≥ d.hi) := by omega
  by_cases hcc : (mi2 ≤ d.lo ∧ ma2 ≥ d.hi)
  · rw [if_pos (hc.mpr hcc), if_pos hcc]
  · rw [if_neg (fun hx => hcc (hc.mp hx)), if_neg hcc]
    unfold setRange
    have hA : (mi1 > ma1 ∨ mi1 > d.hi ∨ ma1 < d.lo)
        ↔ (mi2 > ma2 ∨ mi2 > d.hi ∨ ma2 < d.lo) := by omega
    by_cases hAA : (mi2 > ma2 ∨ mi2 > d.hi ∨ ma2 < d.lo)
    · rw [if_pos (hA.mpr hAA), if_pos hAA]
    · rw [if_neg (fun hx => hAA (hA.mp hx)), if_neg hAA]
      simp only [Option.some.injEq, Dom.mk.injEq]
      constructor
      · omega
      · omega

/-- Under the no-overflow regime the saturating leaf update of
`SafeSumConstraint::PushDown` computes exactly what the plain
`SumConstraint::PushDown` computes: either every saturating operation is
exact, or it saturates on a bound that was already strictly outside the
leaf's domain on both sides. -/
theorem safePushDownLeaf_eq {B S sumMin sumMax newMin newMax : Int} {d : Dom}
    (hB : 0 ≤ B) (hS0 : 0 ≤ S)
    (hdl : -B ≤ d.lo) (hdw : d.lo ≤ d.hi) (hdh : d.hi ≤ B)
    (hsm : -S ≤ sumMin) (hsx : sumMax ≤ S) (hsw : sumMin ≤ sumMax)
    (hSB : S + B ≤ kint64max)
    (hne1 : kint64min < sumMin) (hne2 : sumMax < kint64max)
    (hgap : sumMin - d.lo ≤ sumMax - d.hi)
    (hrm : sumMin - d.lo < kint64max) (hrx : kint64min < sumMax - d.hi)
    (hn1 : sumMin ≤ newMin) (hn2 : newMin ≤ newMax) (hn3 : newMax ≤ sumMax) :
    safePushDownLeaf sumMin sumMax newMin newMax d
      = pushDownLeaf sumMin sumMax newMin newMax d := by
  have hk := kint64min_eq
  have hkp := kint64max_pos
  have hm1 : sumMin ≠ kint64min := by omega
  have hm2 : sumMax ≠ kint64max := by omega
  have hc1 : CapSub sumMin d.lo = sumMin - d.lo := CapSub_eq (by omega) (by omega)
  have hc2 : CapSub sumMax d.hi = sumMax - d.hi := CapSub_eq (by omega) (by omega)
  have hrm2 : sumMin - d.lo ≠ kint64max := by omega
  have hrx2 : sumMax - d.hi ≠ kint64min := by omega
  have hmi : CapSub newMin (sumMax - d.hi) = newMin - (sumMax - d.hi)
      ∨ (CapSub newMin (sumMax - d.hi) = kint64min
          ∧ newMin - (sumMax - d.hi) < kint64min) := by
    rcases le_or_lt kint64min (newMin - (sumMax - d.hi)) with hcl | hcl
    · exact Or.inl (CapSub_eq hcl (by omega))
    · exact Or.inr ⟨CapSub_low hcl, hcl⟩
  have hma : CapSub newMax (sumMin - d.lo) = newMax - (sumMin - d.lo)
      ∨ (CapSub newMax (sumMin - d.lo) = kint64max
          ∧ kint64max < newMax - (sumMin - d.lo)) := by
    rcases le_or_lt (newMax - (sumMin - d.lo)) kint64max with hch | hch
    · exact Or.inl (CapSub_eq (by omega) hch)
    · exact Or.inr ⟨CapSub_high hch, hch⟩
  simp only [safePushDownLeaf, pushDownLeaf]
  rw [if_pos hm1, if_pos hm2, hc1, hc2, if_neg hrx2, if_neg hrm2]
  exact pushLeaf_cases d hdw (by omega) (by omega) (by omega) (by omega)

/-- The root bounds computed by `SafeComputeNode` from the leaves agree with
the plain sums when every variable fits in `±B` with `(n+1)·B` within the
`int64` range. -/
theorem safeRoot_eq {B : Int} {vs : List Dom}
    (hB0 : 0 ≤ B) (hwf : ∀ d ∈ vs, d.wf) (hb : ∀ d ∈ vs, -B ≤ d.lo ∧ d.hi ≤ B)
    (hcap : ((vs.length : Int) + 1) * B ≤ kint64max) :
    SafeComputeNode vs 0 0 = (rootMin vs, rootMax vs) := by
  have hk := kint64min_eq
  have hkp := kint64max_pos
  have hS0 : 0 ≤ (vs.length : Int) * B := by positivity
  have hrg : ((vs.length : Int) + 1) * B = (vs.length : Int) * B + B := by ring
  rw [hrg] at hcap
  have hnBk : (vs.length : Int) * B < kint64max := by
    rcases eq_or_lt_of_le hB0 with hB1 | hB1
    · have hz : (vs.length : Int) * B = 0 := by rw [← hB1]; ring
      omega
    · generalize (vs.length : Int) * B = S at hcap hS0 ⊢
      omega
  have h := SafeComputeNode_eq hB0 vs 0 0
    (fun d hd => by
      have h1 := hb d hd
      have h2 := hwf d hd
      exact ⟨h1.1, by have := h2; unfold Dom.wf at this; omega,
        by have := h2; unfold Dom.wf at this; omega, h1.2⟩)
    (by generalize (vs.length : Int) * B = S at hcap hS0 ⊢; omega)
    (by generalize (vs.length : Int) * B = S at hnBk hS0 ⊢; omega)
    (by generalize (vs.length : Int) * B = S at hcap hS0 ⊢; omega)
    (by generalize (vs.length : Int) * B = S at hnBk hS0 ⊢; omega)
  rw [h]
  simp [rootMin, rootMax]

/-- Under the no-overflow regime, the saturating `SafeSumConstraint::PushDown`
agrees with the plain `SumConstraint::PushDown`. -/
theorem safePushDown_eq (vs : List Dom) (T1 : Dom) (B : Int)
    (hB0 : 0 ≤ B) (hwf : ∀ d ∈ vs, d.wf) (hb : ∀ d ∈ vs, -B ≤ d.lo ∧ d.hi ≤ B)
    (hcap : ((vs.length : Int) + 1) * B ≤ kint64max)
    (hT1 : T1.lo ≤ T1.hi) :
    safePushDown vs T1 = pushDown vs T1 := by
  have hk := kint64min_eq
  have hkp := kint64max_pos
  have hS0 : 0 ≤ (vs.length : Int) * B := by positivity
  have hrg : ((vs.length : Int) + 1) * B = (vs.length : Int) * B + B := by ring
  have hSB : (vs.length : Int) * B + B ≤ kint64max := by rw [← hrg]; exact hcap
  have hnBk : (vs.length : Int) * B < kint64max := by
    rcases eq_or_lt_of_le hB0 with hB1 | hB1
    · have hz : (vs.length : Int) * B = 0 := by rw [← hB1]; ring
      omega
    · generalize (vs.length : Int) * B = S at hSB hS0 ⊢
      omega
  have hblo : ∀ d ∈ vs, -B ≤ d.lo := fun d hd => (hb d hd).1
  have hbhi : ∀ d ∈ vs, d.hi ≤ B := fun d hd => (hb d hd).2
  have hblo2 : ∀ d ∈ vs, d.lo ≤ B := fun d hd => le_trans (hwf d hd) (hbhi d hd)
  have hbhi2 : ∀ d ∈ vs, -B ≤ d.hi := fun d hd => le_trans (hblo d hd) (hwf d hd)
  have hrmge : -((vs.length : Int) * B) ≤ rootMin vs := rootMin_ge hblo
  have hrmle : rootMin vs ≤ (vs.length : Int) * B := rootMin_le hblo2
  have hrxge : -((vs.length : Int) * B) ≤ rootMax vs := rootMax_ge hbhi2
  have hrxle : rootMax vs ≤ (vs.length : Int) * B := rootMax_le hbhi
  have hsw : rootMin vs ≤ rootMax vs := rootMin_le_rootMax hwf
  have hroot := safeRoot_eq hB0 hwf hb hcap
  have hr1 : (SafeComputeNode vs 0 0).1 = rootMin vs := by rw [hroot]
  have hr2 : (SafeComputeNode vs 0 0).2 = rootMax vs := by rw [hroot]
  simp only [safePushDown, pushDown, hr1, hr2]
  split_ifs with hx hy
  · rfl
  · rfl
  · refine mapOpt_congr ?_
    intro d hd
    have hd1 := hblo d hd
    have hd2 := hwf d hd
    have hd3 := hbhi d hd
    have hdw : d.lo ≤ d.hi := hd2
    have hgap : rootMin vs - d.lo + d.hi ≤ rootMax vs := rootMin_sub_add_le hwf d hd
    have hsub1 : rootMin vs - d.lo ≤ ((vs.length : Int) - 1) * B := sum_sub_le hblo2 d hd
    have hsub2 : -(((vs.length : Int) - 1) * B) ≤ rootMax vs - d.hi := sum_sub_ge hbhi2 d hd
    have hrg2 : ((vs.length : Int) + 1) * B = ((vs.length : Int) - 1) * B + 2 * B := by
      ring
    have hsubk : ((vs.length : Int) - 1) * B < kint64max := by
      rcases eq_or_lt_of_le hB0 with hB1 | hB1
      · have hz : ((vs.length : Int) - 1) * B = 0 := by rw [← hB1]; ring
        omega
      · rw [hrg2] at hcap
        generalize ((vs.length : Int) - 1) * B = S2 at hcap ⊢
        omega
    have hnm : ¬(min (rootMax vs) T1.hi < rootMin vs ∨ max (rootMin vs) T1.lo > rootMax vs) := hy
    refine safePushDownLeaf_eq hB0 hS0 hd1 hdw hd3 ?_ ?_ hsw ?_ ?_ ?_ ?_ ?_ ?_ ?_ ?_ ?_
    · exact hrmge
    · exact hrxle
    · exact hSB
    · generalize (vs.length : Int) * B = S at hrmge hS0 hSB ⊢; omega
    · generalize (vs.length : Int) * B = S at hrxle hnBk ⊢; omega
    · omega
    · generalize ((vs.length : Int) - 1) * B = S2 at hsub1 hsubk ⊢; omega
    · generalize ((vs.length : Int) - 1) * B = S2 at hsub2 hsubk ⊢; omega
    · omega
    · omega
    · omega

/-- Under the no-overflow regime, `SafeSumConstraint::SumChanged` agrees with
`SumConstraint::SumChanged`: the sentinel guards the plain version carries
are automatically satisfied. -/
theorem safeSumChanged_eq (vs : List Dom) (T1 : Dom) (B : Int)
    (hB0 : 0 ≤ B) (hwf : ∀ d ∈ vs, d.wf) (hb : ∀ d ∈ vs, -B ≤ d.lo ∧ d.hi ≤ B)
    (hcap : ((vs.length : Int) + 1) * B ≤ kint64max)
    (hT1 : T1.lo ≤ T1.hi) :
    safeSumChanged vs T1 = sumChanged vs T1 := by
  have hk := kint64min_eq
  have hkp := kint64max_pos
  have hS0 : 0 ≤ (vs.length : Int) * B := by positivity
  have hrg : ((vs.length : Int) + 1) * B = (vs.length : Int) * B + B := by ring
  have hSB : (vs.length : Int) * B + B ≤ kint64max := by rw [← hrg]; exact hcap
  have hnBk : (vs.length : Int) * B < kint64max := by
    rcases eq_or_lt_of_le hB0 with hB1 | hB1
    · have hz : (vs.length : Int) * B = 0 := by rw [← hB1]; ring
      omega
    · generalize (vs.length : Int) * B = S at hSB hS0 ⊢
      omega
  have hblo : ∀ d ∈ vs, -B ≤ d.lo := fun d hd => (hb d hd).1
  have hbhi : ∀ d ∈ vs, d.hi ≤ B := fun d hd => (hb d hd).2
  have hblo2 : ∀ d ∈ vs, d.lo ≤ B := fun d hd => le_trans (hwf d hd) (hbhi d hd)
  have hbhi2 : ∀ d ∈ vs, -B ≤ d.hi := fun d hd => le_trans (hblo d hd) (hwf d hd)
  have hrmge : -((vs.length : Int) * B) ≤ rootMin vs := rootMin_ge hblo
  have hrmle : rootMin vs ≤ (vs.length : Int) * B := rootMin_le hblo2
  have hrxge : -((vs.length : Int) * B) ≤ rootMax vs := rootMax_ge hbhi2
  have hroot := safeRoot_eq hB0 hwf hb hcap
  have hr1 : (SafeComputeNode vs 0 0).1 = rootMin vs := by rw [hroot]
  have hr2 : (SafeComputeNode vs 0 0).2 = rootMax vs := by rw [hroot]
  have hiff1 : (T1.hi = rootMin vs)
      ↔ (T1.hi = rootMin vs ∧ T1.hi ≠ kint64max) := by
    constructor
    · intro h
      refine ⟨h, ?_⟩
      generalize (vs.length : Int) * B = S at hrmle hnBk ⊢
      omega
    · exact And.left
  have hiff2 : (T1.lo = rootMax vs)
      ↔ (T1.lo = rootMax vs ∧ T1.lo ≠ kint64min) := by
    constructor
    · intro h
      refine ⟨h, ?_⟩
      generalize (vs.length : Int) * B = S at hrxge hnBk hS0 ⊢
      omega
    · exact And.left
  simp only [safeSumChanged, sumChanged, hr1, hr2]
  rw [if_congr hiff1 rfl rfl, if_congr hiff2 rfl
    (safePushDown_eq vs T1 B hB0 hwf hb hcap hT1)]

/-- C2.  For every array of variables whose bounds all fit in
`±(kint64max / (n + 1))` (`n` the number of variables), one propagation round
of the saturating `SafeSumConstraint` computes exactly the same result — the
same failure, or the same variable and target bounds — as the plain
`SumConstraint`: under the no-overflow regime the two constraints agree. -/
theorem safe_sum_agrees (vs : List Dom) (T : Dom)
    (hTwf : T.wf) (hwf : ∀ d ∈ vs, d.wf)
    (hB : ∀ d ∈ vs, -(kint64max / ((vs.length : Int) + 1)) ≤ d.lo ∧
        d.hi ≤ kint64max / ((vs.length : Int) + 1)) :
    safeSumPropagateOnce vs T = sumPropagateOnce vs T := by
  have hpos : (0 : Int) < (vs.length : Int) + 1 := by positivity
  have hB0 : 0 ≤ kint64max / ((vs.length : Int) + 1) :=
    Int.ediv_nonneg (le_of_lt kint64max_pos) (le_of_lt hpos)
  have hcap : ((vs.length : Int) + 1) * (kint64max / ((vs.length : Int) + 1))
      ≤ kint64max := by
    have h := Int.ediv_mul_le kint64max (ne_of_gt hpos)
    calc ((vs.length : Int) + 1) * (kint64max / ((vs.length : Int) + 1))
        = kint64max / ((vs.length : Int) + 1) * ((vs.length : Int) + 1) := by ring
      _ ≤ kint64max := h
  have hroot := safeRoot_eq hB0 hwf hB hcap
  have hr1 : (SafeComputeNode vs 0 0).1 = rootMin vs := by rw [hroot]
  have hr2 : (SafeComputeNode vs 0 0).2 = rootMax vs := by rw [hroot]
  unfold safeSumPropagateOnce sumPropagateOnce
  rw [hr1, hr2]
  cases hsr : setRange T (rootMin vs) (rootMax vs) with
  | none => rfl
  | some T1 => ?_
  have hT1w : T1.lo ≤ T1.hi := by
    unfold setRange at hsr
    split at hsr
    · exact absurd hsr (by simp)
    · rename_i hcond
      simp only [Option.some.injEq] at hsr
      have h1 : max T.lo (rootMin vs) = T1.lo := congrArg Dom.lo hsr
      have h2 : min T.hi (rootMax vs) = T1.hi := congrArg Dom.hi hsr
      have h3 : T.lo ≤ T.hi := hTwf
      omega
  dsimp only
  rw [safeSumChanged_eq vs T1 _ hB0 hwf hB hcap hT1w]

/-- C2, witness for `safe_sum_agrees`: three small variables and a wide
target, on which both propagation rounds coincide. -/
theorem safe_sum_agrees_witness :
    safeSumPropagateOnce [⟨0, 5⟩, ⟨1, 3⟩, ⟨2, 4⟩] ⟨0, 100⟩
      = sumPropagateOnce [⟨0, 5⟩, ⟨1, 3⟩, ⟨2, 4⟩] ⟨0, 100⟩ :=
  safe_sum_agrees [⟨0, 5⟩, ⟨1, 3⟩, ⟨2, 4⟩] ⟨0, 100⟩
    (by decide) (by decide) (by decide)

/-!
## Diffn — non-overlapping rectangles (`diffn.cc`)

The claim is about complete assignments: every one of the four variables of
every rectangle is bound, so `Min() = Max()` everywhere and each propagation
method either leaves the state unchanged or fails.  A bound rectangle is a
quadruple of values; a setter on a bound variable fails exactly when the
requested bound excludes the single remaining value.
-/

/-- A rectangle whose four variables (`x`, `y`, `dx`, `dy`) are all bound. -/
structure BBox where
  x : Int
  y : Int
  dx : Int
  dy : Int
  deriving DecidableEq, Repr

/-- `Diffn::DisjointHorizontal` (lines 154–157) on bound boxes. -/
def DisjointHorizontal (a b : BBox) : Bool :=
  decide (a.x ≥ b.x + b.dx) || decide (b.x ≥ a.x + a.dx)

/-- `Diffn::DisjointVertical` (lines 159–162) on bound boxes. -/
def DisjointVertical (a b : BBox) : Bool :=
  decide (a.y ≥ b.y + b.dy) || decide (b.y ≥ a.y + a.dy)

/-- `Diffn::Overlap` (lines 147–152). -/
def Overlap (a b : BBox) : Bool :=
  !(DisjointHorizontal a b || DisjointVertical a b)

/-- `Diffn::FillNeighbors` (lines 165–172): all other boxes whose potential
placement overlaps the given box. -/
def FillNeighbors (boxes : List BBox) (i : Nat) : List Nat :=
  (List.range boxes.length).filter
    (fun o => o ≠ i && Overlap (boxes.getD o ⟨0, 0, 0, 0⟩) (boxes.getD i ⟨0, 0, 0, 0⟩))

/-- The loop body of `Diffn::CheckEnergy` (lines 182–196): grow the bounding
box neighbor by neighbor, accumulate the areas, and fail as soon as the
accumulated area exceeds the bounding box. -/
def checkEnergyGo (boxes : List BBox) :
    List Nat → Int → Int → Int → Int → Int → Bool
  | [], _, _, _, _, _ => true
  | o :: rest, aminx, amaxx, aminy, amaxy, sumAreas =>
    let ob := boxes.getD o ⟨0, 0, 0, 0⟩
    let aminx2 := min aminx ob.x
    let amaxx2 := max amaxx (ob.x + ob.dx)
    let aminy2 := min aminy ob.y
    let amaxy2 := max amaxy (ob.y + ob.dy)
    let sum2 := sumAreas + ob.dx * ob.dy
    if sum2 > (amaxx2 - aminx2) * (amaxy2 - aminy2) then false
    else checkEnergyGo boxes rest aminx2 amaxx2 aminy2 amaxy2 sum2

/-- `Diffn::CheckEnergy` (lines 176–197) on bound boxes. -/
def CheckEnergy (boxes : List BBox) (i : Nat) (nbrs : List Nat) : Bool :=
  let b := boxes.getD i ⟨0, 0, 0, 0⟩
  checkEnergyGo boxes nbrs b.x (b.x + b.dx) b.y (b.y + b.dy) (b.dx * b.dy)

/-- `Diffn::PushOneDirection` (lines 217–233) on bound boxes: each `SetMin` /
`SetMax` on a bound variable either keeps its single value or fails. -/
def PushOneDirection (startMaxBox endMinBox startMaxOther endMinOther
    posBox posOther sizeBox sizeOther : Int) : Bool :=
  if endMinOther > startMaxBox then
    decide (endMinBox ≤ posOther) &&
    decide (posBox ≤ startMaxOther - sizeBox) &&
    decide (sizeBox ≤ startMaxOther - posBox)
  else if endMinBox > startMaxOther then
    decide (endMinOther ≤ posBox) &&
    decide (posOther ≤ startMaxBox - sizeOther) &&
    decide (sizeOther ≤ startMaxBox - posOther)
  else true

/-- `Diffn::PushOneBox` (lines 235–265) on bound boxes: if the mandatory
parts (the boxes themselves, once bound) overlap in both dimensions, fail;
with exactly one overlapping dimension, push along the other one. -/
def PushOneBox (boxes : List BBox) (i o : Nat) : Bool :=
  let b := boxes.getD i ⟨0, 0, 0, 0⟩
  let ob := boxes.getD o ⟨0, 0, 0, 0⟩
  if ob.x < ob.x + ob.dx ∧ ob.y < ob.y + ob.dy then
    if (ob.x < b.x + b.dx ∧ b.x < ob.x + ob.dx) ∧
        (ob.y < b.y + b.dy ∧ b.y < ob.y + ob.dy) then
      false
    else if ob.x < b.x + b.dx ∧ b.x < ob.x + ob.dx then
      PushOneDirection b.y (b.y + b.dy) ob.y (ob.y + ob.dy) b.y ob.y b.dy ob.dy
    else if ob.y < b.y + b.dy ∧ b.y < ob.y + ob.dy then
      PushOneDirection b.x (b.x + b.dx) ob.x (ob.x + ob.dx) b.x ob.x b.dx ob.dx
    else true
  else true

/-- `Diffn::PushOverlappingBoxes` (lines 200–215) on bound boxes. -/
def PushOverlappingBoxes (boxes : List BBox) (i : Nat) (nbrs : List Nat) : Bool :=
  let b := boxes.getD i ⟨0, 0, 0, 0⟩
  if b.x < b.x + b.dx ∧ b.y < b.y + b.dy then
    nbrs.all (fun o => PushOneBox boxes i o)
  else true

/-- The per-box body of `Diffn::PropagateAll` (lines 115–123). -/
def propagateBox (boxes : List BBox) (i : Nat) : Bool :=
  let nbrs := FillNeighbors boxes i
  CheckEnergy boxes i nbrs && PushOverlappingBoxes boxes i nbrs

/-- `Diffn::InitialPropagate` (lines 95–108) on a complete assignment: force
`dx ≥ 1` and `dy ≥ 1` on every (bound) size, then run the `PropagateAll`
body for every box. -/
def diffnPropagateAll (boxes : List BBox) : Bool :=
  boxes.all (fun b => decide (1 ≤ b.dx) && decide (1 ≤ b.dy)) &&
  (List.range boxes.length).all (fun i => propagateBox boxes i)

/-- Two bound rectangles share a point (rectangles are the half-open integer
boxes `[x, x+dx) × [y, y+dy)`). -/
def SharePoint (a b : BBox) : Prop :=
  ∃ px py : Int,
    a.x ≤ px ∧ px < a.x + a.dx ∧ b.x ≤ px ∧ px < b.x + b.dx ∧
    a.y ≤ py ∧ py < a.y + a.dy ∧ b.y ≤ py ∧ py < b.y + b.dy

/-- C3.  A complete assignment (all four variables of every rectangle bound)
accepted by the Diffn constraint's propagation without failure places the
rectangles so that no two distinct rectangles share a point: two bound
rectangles sharing a point have overlapping mandatory parts in both
dimensions, which `PushOneBox` turns into a failure. -/
theorem diffn_no_overlap (boxes : List BBox)
    (hprop : diffnPropagateAll boxes = true) :
    ∀ i j, i < boxes.length → j < boxes.length → i ≠ j →
      ¬ SharePoint (boxes.getD i ⟨0, 0, 0, 0⟩) (boxes.getD j ⟨0, 0, 0, 0⟩) := by
  intro i j hi hj hij hsp
  obtain ⟨px, py, h1, h2, h3, h4, h5, h6, h7, h8⟩ := hsp
  unfold diffnPropagateAll at hprop
  rw [Bool.and_eq_true] at hprop
  obtain ⟨hsizes, hall⟩ := hprop
  rw [List.all_eq_true] at hsizes hall
  have hbi := hsizes (boxes.getD i ⟨0, 0, 0, 0⟩) (by
    rw [List.getD_eq_getElem boxes ⟨0, 0, 0, 0⟩ hi]; exact List.getElem_mem hi)
  have hbj := hsizes (boxes.getD j ⟨0, 0, 0, 0⟩) (by
    rw [List.getD_eq_getElem boxes ⟨0, 0, 0, 0⟩ hj]; exact List.getElem_mem hj)
  rw [Bool.and_eq_true, decide_eq_true_eq, decide_eq_true_eq] at hbi hbj
  have hpi := hall i (List.mem_range.mpr hi)
  unfold propagateBox at hpi
  rw [Bool.and_eq_true] at hpi
  have hpush := hpi.2
  unfold PushOverlappingBoxes at hpush
  rw [if_pos (by constructor <;> omega)] at hpush
  rw [List.all_eq_true] at hpush
  have hjmem : j ∈ FillNeighbors boxes i := by
    unfold FillNeighbors
    rw [List.mem_filter]
    refine ⟨List.mem_range.mpr hj, ?_⟩
    rw [Bool.and_eq_true]
    refine ⟨by simp [hij, Ne.symm hij], ?_⟩
    unfold Overlap DisjointHorizontal DisjointVertical
    simp only [Bool.not_eq_true', Bool.or_eq_false_iff, decide_eq_false_iff_not,
      not_le]
    constructor <;> constructor <;> omega
  have hone := hpush j hjmem
  unfold PushOneBox at hone
  rw [if_pos (by constructor <;> omega)] at hone
  rw [if_pos ⟨⟨by omega, by omega⟩, ⟨by omega, by omega⟩⟩] at hone
  exact absurd hone (by simp)

/-- C3, witness for `diffn_no_overlap` on two disjoint unit squares. -/
theorem diffn_no_overlap_witness :
    diffnPropagateAll [⟨0, 0, 1, 1⟩, ⟨2, 0, 1, 1⟩] = true ∧
      ¬ SharePoint (([⟨0, 0, 1, 1⟩, ⟨2, 0, 1, 1⟩] : List BBox).getD 0 ⟨0, 0, 0, 0⟩)
        (([⟨0, 0, 1, 1⟩, ⟨2, 0, 1, 1⟩] : List BBox).getD 1 ⟨0, 0, 0, 0⟩) :=
  ⟨by decide,
   diffn_no_overlap [⟨0, 0, 1, 1⟩, ⟨2, 0, 1, 1⟩] (by decide) 0 1
     (by decide) (by decide) (by decide)⟩

/-!
## Assignment snapshot — save / load (`assignment.cc`)

The int-variable container is embedded as a list of elements; the interval
and sequence containers go through the same `RealLoad` template with the
same logic.  Variable identity (`var_`) is a numeric id, the variable's name
a string.  The fatal `CHECK(!var_id.empty())` of `LoadElement` is modelled
as `none`.
-/

/-- An `IntVarElement` (assignment.cc): the underlying variable, its name,
the stored range and the activation flag. -/
structure IntVarElementE where
  varId : Nat
  name : String
  min : Int
  max : Int
  activated : Bool
  deriving DecidableEq, Repr

/-- `IntVarElement::operator==` (lines 78–91): same variable, same activation
flag, and two deactivated elements compare equal regardless of bounds. -/
def elemEq (a b : IntVarElementE) : Bool :=
  if a.varId ≠ b.varId then false
  else if a.activated ≠ b.activated then false
  else if ¬a.activated ∧ ¬b.activated then true
  else decide (a.min = b.min) && decide (a.max = b.max)

/-- An `IntVarAssignmentProto` record: `var_id`, `min`, `max`, `active`. -/
structure IntVarAssignmentP where
  var_id : String
  min : Int
  max : Int
  active : Bool
  deriving DecidableEq, Repr

/-- `IntVarElement::RestoreToProto` (lines 94–100): serialize one element,
keyed by the variable's name. -/
def RestoreToProto (e : IntVarElementE) : IntVarAssignmentP :=
  ⟨e.name, e.min, e.max, e.activated⟩

/-- `IntVarElement::StoreFromProto` (lines 67–76): overwrite the element's
payload from the record; the element's variable is untouched. -/
def StoreFromProto (e : IntVarElementE) (p : IntVarAssignmentP) : IntVarElementE :=
  { e with min := p.min, max := p.max, activated := p.active }

/-- `RealSave` (lines 536 ff.): one record per container element. -/
def RealSave (c : List IntVarElementE) : List IntVarAssignmentP :=
  c.map RestoreToProto

/-- Modelled from the spec: `Assignment::Clear` (lines 371–376) calls the
containers' `Clear`, and per the spec's lifecycle, `Clear()` drops all
elements (the `AssignmentContainer` class itself is declared in a header not
among the sources here). -/
def assignmentClear (_ : List IntVarElementE) : List IntVarElementE := []

/-- The positional fast path of `RealLoad` (lines 461–470): store records
into elements while the names match; the first mismatch stops the walk and
reports failure, keeping the already-updated prefix. -/
def fastLoad : List IntVarElementE → List IntVarAssignmentP →
    List IntVarElementE × Bool
  | [], [] => ([], true)
  | e :: es, p :: ps =>
    if e.name = p.var_id then
      let r := fastLoad es ps
      (StoreFromProto e p :: r.1, r.2)
    else (e :: es, false)
  | es, _ => (es, false)

/-- The name-keyed slow path of `RealLoad` (lines 471–478) with
`IdToElementMap` (lines 397–416) and `LoadElement` (lines 418–430): the map
sends each non-empty, non-duplicate name to its first element; a record
whose `var_id` hits the map updates that element, records naming no element
are skipped, and an empty `var_id` hits the fatal `CHECK`. -/
def slowLoad (c : List IntVarElementE) :
    List IntVarAssignmentP → Option (List IntVarElementE)
  | [] => some c
  | p :: ps =>
    if p.var_id = "" then none
    else
      match c.findIdx? (fun e => e.name = p.var_id) with
      | some k => slowLoad (c.set k (StoreFromProto (c.getD k ⟨0, "", 0, 0, true⟩) p)) ps
      | none => slowLoad c ps

/-- `RealLoad` (lines 456–479): try the positional fast path when the sizes
match, fall back to the name-keyed slow path. -/
def RealLoad (c : List IntVarElementE) (ps : List IntVarAssignmentP) :
    Option (List IntVarElementE) :=
  if c.length = ps.length then
    match fastLoad c ps with
    | (c2, true) => some c2
    | (c2, false) => slowLoad c2 ps
  else slowLoad c ps

theorem store_restore (e : IntVarElementE) :
    StoreFromProto e (RestoreToProto e) = e := rfl

theorem fastLoad_self : ∀ c : List IntVarElementE, fastLoad c (RealSave c) = (c, true)
  | [] => rfl
  | e :: es => by
    have ht := fastLoad_self es
    simp only [RealSave] at ht
    simp [RealSave, fastLoad, ht, store_restore, RestoreToProto]
    rfl

theorem slowLoad_nil {ps : List IntVarAssignmentP}
    (hn : ∀ p ∈ ps, p.var_id ≠ "") : slowLoad [] ps = some [] := by
  induction ps with
  | nil => rfl
  | cons p ps ih =>
    have hp := hn p (List.mem_cons_self p ps)
    simp only [slowLoad, if_neg hp, List.findIdx?_nil]
    exact ih fun q hq => hn q (List.mem_cons_of_mem p hq)

/-- C4, counterexample.  Save an assignment holding one activated element for
the variable named `"a"` with range `[2, 5]`, `Clear()`, then `Load` the
record: the load succeeds but restores nothing — the assignment stays empty,
because `Load` only updates elements already present in the container and
`Clear` dropped them all.  No element equal (per §4.10) to the original
exists in the result. -/
theorem assignment_clear_load_counterexample :
    RealLoad (assignmentClear [⟨0, "a", 2, 5, true⟩])
        (RealSave [⟨0, "a", 2, 5, true⟩]) = some []
      ∧ ¬ ∃ e ∈ ([] : List IntVarElementE), elemEq e ⟨0, "a", 2, 5, true⟩ = true := by
  constructor
  · rfl
  · simp

/-- C4, amended.  Without the intervening `Clear`, `Save` followed by `Load`
restores the assignment exactly (hence element-wise equal per §4.10): the
positional fast path matches every name and rewrites each element with its
own saved payload.  With the `Clear` in between, `Load` returns the empty
assignment unchanged (provided the saved names are non-empty, so the fatal
`CHECK` in `LoadElement` is not hit): nothing is restored. -/
theorem assignment_save_load_roundtrip (c : List IntVarElementE)
    (hn : ∀ e ∈ c, e.name ≠ "") :
    RealLoad c (RealSave c) = some c ∧
      RealLoad (assignmentClear c) (RealSave c) = some (assignmentClear c) := by
  constructor
  · unfold RealLoad
    rw [if_pos (by simp [RealSave])]
    rw [fastLoad_self c]
  · unfold RealLoad assignmentClear
    have hn2 : ∀ p ∈ RealSave c, p.var_id ≠ "" := by
      intro p hp
      obtain ⟨e, he, hep⟩ := List.mem_map.mp hp
      rw [← hep]
      exact hn e he
    cases c with
    | nil => rfl
    | cons e es =>
      rw [if_neg (by simp [RealSave])]
      exact slowLoad_nil hn2

/-- C4, witness for `assignment_save_load_roundtrip` on a one-element
assignment with the non-empty name `"a"`. -/
theorem assignment_save_load_roundtrip_witness :
    RealLoad [⟨0, "a", 2, 5, true⟩] (RealSave [⟨0, "a", 2, 5, true⟩])
        = some [⟨0, "a", 2, 5, true⟩] ∧
      RealLoad (assignmentClear [⟨0, "a", 2, 5, true⟩])
          (RealSave [⟨0, "a", 2, 5, true⟩])
        = some (assignmentClear [⟨0, "a", 2, 5, true⟩]) :=
  assignment_save_load_roundtrip [⟨0, "a", 2, 5, true⟩] (by decide)

/-!
## `Solver::MakeMax` and the model cache (`expr_array.cc` lines 2395–2430,
model cache `InsertVarArrayExpression` / `FindVarArrayExpression`)

Expressions are identified by numeric ids; a variable carries its domain for
the `AreAllBooleans` test.  The cache is the var-array expression family:
a list of (type, variable ids, expression id) entries, with the
outside-search guard of `InsertVarArrayExpression`.
-/

/-- The two var-array expression cache families used by `MakeMin`/`MakeMax`. -/
inductive VarArrayExprType
  | VAR_ARRAY_MAX
  | VAR_ARRAY_MIN
  deriving DecidableEq, Repr

/-- The var-array slice of the model cache plus the solver's fresh-variable
counter and search state. -/
structure SolverCache where
  entries : List (VarArrayExprType × List Nat × Nat)
  nextVar : Nat
  inSearch : Bool
  deriving DecidableEq, Repr

/-- `ModelCacheManager::FindVarArrayExpression`. -/
def FindVarArrayExpression (s : SolverCache) (vars : List Nat)
    (t : VarArrayExprType) : Option Nat :=
  (s.entries.find? (fun e => decide (e.1 = t) && decide (e.2.1 = vars))).map
    (fun e => e.2.2)

/-- `ModelCacheManager::InsertVarArrayExpression` (part_001 lines 748–759):
insert only outside search and only when the key is not already present. -/
def InsertVarArrayExpression (s : SolverCache) (expression : Nat)
    (vars : List Nat) (t : VarArrayExprType) : SolverCache :=
  if s.inSearch = false ∧ FindVarArrayExpression s vars t = none then
    { s with entries := (t, vars, expression) :: s.entries }
  else s

/-- `AreAllBooleans` (expr_array.cc lines 1121–1129). -/
def AreAllBooleans (vars : List (Nat × Dom)) : Bool :=
  vars.all (fun v => decide (0 ≤ v.2.lo) && decide (v.2.hi ≤ 1))

/-- The `size > 2` branch of `Solver::MakeMax` (lines 2403–2428): look the
array up under `VAR_ARRAY_MAX`; on a miss build a fresh variable and insert
it — under `VAR_ARRAY_MIN` in the all-boolean branch (the source's literal
line 2413) and under `VAR_ARRAY_MAX` otherwise. -/
def MakeMaxArray (s : SolverCache) (vars : List (Nat × Dom)) : Nat × SolverCache :=
  let ids := vars.map Prod.fst
  match FindVarArrayExpression s ids VarArrayExprType.VAR_ARRAY_MAX with
  | some cached => (cached, s)
  | none =>
    let newVar := s.nextVar
    let s1 : SolverCache := { s with nextVar := s.nextVar + 1 }
    if AreAllBooleans vars then
      (newVar,
        InsertVarArrayExpression s1 newVar ids VarArrayExprType.VAR_ARRAY_MIN)
    else
      (newVar,
        InsertVarArrayExpression s1 newVar ids VarArrayExprType.VAR_ARRAY_MAX)

/-- C5, evaluation at the failing input.  For three boolean variables, the
first `MakeMax` call (before search) returns the fresh variable 3 but files
it in the cache under `VAR_ARRAY_MIN`; the second call looks up
`VAR_ARRAY_MAX`, misses, and returns a different fresh variable 4 — the
claimed deduplication fails.  For three non-boolean variables the second
call does return the first call's cached variable. -/
theorem make_max_cache_bug :
    (MakeMaxArray ⟨[], 3, false⟩ [(0, ⟨0, 1⟩), (1, ⟨0, 1⟩), (2, ⟨0, 1⟩)]).1 = 3
    ∧ (MakeMaxArray
        (MakeMaxArray ⟨[], 3, false⟩ [(0, ⟨0, 1⟩), (1, ⟨0, 1⟩), (2, ⟨0, 1⟩)]).2
        [(0, ⟨0, 1⟩), (1, ⟨0, 1⟩), (2, ⟨0, 1⟩)]).1 = 4
    ∧ FindVarArrayExpression
        (MakeMaxArray ⟨[], 3, false⟩ [(0, ⟨0, 1⟩), (1, ⟨0, 1⟩), (2, ⟨0, 1⟩)]).2
        [0, 1, 2] VarArrayExprType.VAR_ARRAY_MAX = none
    ∧ FindVarArrayExpression
        (MakeMaxArray ⟨[], 3, false⟩ [(0, ⟨0, 1⟩), (1, ⟨0, 1⟩), (2, ⟨0, 1⟩)]).2
        [0, 1, 2] VarArrayExprType.VAR_ARRAY_MIN = some 3
    ∧ (MakeMaxArray ⟨[], 3, false⟩ [(0, ⟨0, 5⟩), (1, ⟨0, 5⟩), (2, ⟨0, 5⟩)]).1
      = (MakeMaxArray
          (MakeMaxArray ⟨[], 3, false⟩ [(0, ⟨0, 5⟩), (1, ⟨0, 5⟩), (2, ⟨0, 5⟩)]).2
          [(0, ⟨0, 5⟩), (1, ⟨0, 5⟩), (2, ⟨0, 5⟩)]).1 := by
  decide

/-!
## Boolean array aggregators (`expr_array.cc`)

`ArrayBoolAndEq::InitialPropagate` (lines 865–893) and
`ArrayBoolOrEq::InitialPropagate` (lines 1008–1036).  A state is a
propagation fixpoint of the constraint when its `InitialPropagate`, run from
that state, changes nothing and does not fail.  The fatal
`CHECK(index != -1)` is modelled as `none`.
-/

/-- `ArrayBoolAndEq::InitialPropagate` (lines 865–893). -/
def arrayBoolAndEqInitial (vs : List Dom) (T : Dom) : Option (List Dom × Dom) :=
  match setRange T 0 1 with
  | none => none
  | some T1 =>
    if T1.lo = 1 then
      match mapOpt (fun d => setMin d 1) vs with
      | none => none
      | some vs2 => some (vs2, T1)
    else
      if 0 < (vs.filter (fun d => decide (d.hi = 0))).length then
        match setMax T1 0 with
        | none => none
        | some T2 => some (vs, T2)
      else if (vs.filter (fun d => decide (¬ d.lo = d.hi))).length = 0 then
        match setMin T1 1 with
        | none => none
        | some T2 => some (vs, T2)
      else if T1.hi = 0 ∧ (vs.filter (fun d => decide (¬ d.lo = d.hi))).length = 1 then
        match vs.findIdx? (fun d => decide (d.lo = 0)) with
        | none => none
        | some k =>
          match setMax (vs.getD k ⟨0, 0⟩) 0 with
          | none => none
          | some dk => some (vs.set k dk, T1)
      else some (vs, T1)

/-- `ArrayBoolOrEq::InitialPropagate` (lines 1008–1036). -/
def arrayBoolOrEqInitial (vs : List Dom) (T : Dom) : Option (List Dom × Dom) :=
  match setRange T 0 1 with
  | none => none
  | some T1 =>
    if T1.hi = 0 then
      match mapOpt (fun d => setMax d 0) vs with
      | none => none
      | some vs2 => some (vs2, T1)
    else
      if 0 < (vs.filter (fun d => decide (d.lo = 1))).length then
        match setMin T1 1 with
        | none => none
        | some T2 => some (vs, T2)
      else if (vs.filter (fun d => decide (¬ d.lo = d.hi))).length = 0 then
        match setMax T1 0 with
        | none => none
        | some T2 => some (vs, T2)
      else if T1.lo = 1 ∧ (vs.filter (fun d => decide (¬ d.lo = d.hi))).length = 1 then
        match vs.findIdx? (fun d => decide (d.hi = 1)) with
        | none => none
        | some k =>
          match setMin (vs.getD k ⟨0, 0⟩) 1 with
          | none => none
          | some dk => some (vs.set k dk, T1)
      else some (vs, T1)

theorem filter_pos_iff {p : Dom → Bool} {vs : List Dom} :
    0 < (vs.filter p).length ↔ ∃ d ∈ vs, p d = true := by
  induction vs with
  | nil => simp
  | cons a as ih =>
    by_cases hp : p a = true
    · simp [List.filter_cons, hp]
    · simp only [List.filter_cons, if_neg hp, ih, List.mem_cons]
      constructor
      · rintro ⟨d, hd, hpd⟩; exact ⟨d, Or.inr hd, hpd⟩
      · rintro ⟨d, hd | hd, hpd⟩
        · subst hd; exact absurd hpd hp
        · exact ⟨d, hd, hpd⟩

theorem filter_zero_iff {p : Dom → Bool} {vs : List Dom} :
    (vs.filter p).length = 0 ↔ ∀ d ∈ vs, ¬ p d = true := by
  constructor
  · intro h d hd hpd
    have : 0 < (vs.filter p).length := filter_pos_iff.mpr ⟨d, hd, hpd⟩
    omega
  · intro h
    by_contra hne
    have : 0 < (vs.filter p).length := by omega
    obtain ⟨d, hd, hpd⟩ := filter_pos_iff.mp this
    exact h d hd hpd

theorem andEq_fixpoint_facts (vs : List Dom) (T : Dom)
    (hw : ∀ d ∈ vs, 0 ≤ d.lo ∧ d.lo ≤ d.hi ∧ d.hi ≤ 1)
    (hfix : arrayBoolAndEqInitial vs T = some (vs, T)) :
    ((∀ d ∈ vs, d.lo = 1) → T.lo = 1) ∧ ((∃ d ∈ vs, d.hi = 0) → T.hi = 0) := by
  unfold arrayBoolAndEqInitial at hfix
  cases hsr : setRange T 0 1 with
  | none => rw [hsr] at hfix; exact absurd hfix (by simp)
  | some T1 => ?_
  rw [hsr] at hfix
  dsimp only at hfix
  unfold setRange at hsr
  split at hsr
  · exact absurd hsr (by simp)
  rename_i hcond
  push_neg at hcond
  obtain ⟨hc1, hc2, hc3⟩ := hcond
  simp only [Option.some.injEq] at hsr
  have hT1lo : max T.lo 0 = T1.lo := congrArg Dom.lo hsr
  have hT1hi : min T.hi 1 = T1.hi := congrArg Dom.hi hsr
  split at hfix
  · -- target min already 1: push min 1 into every input
    rename_i hone
    cases hm : mapOpt (fun d => setMin d 1) vs with
    | none => rw [hm] at hfix; exact absurd hfix (by simp)
    | some vs2 => ?_
    rw [hm] at hfix
    simp only [Option.some.injEq, Prod.mk.injEq] at hfix
    obtain ⟨hv2, hTeq⟩ := hfix
    rw [hv2] at hm
    constructor
    · intro _
      rw [← hTeq]
      exact hone
    · rintro ⟨d, hd, hdh⟩
      have hself := mapOpt_eq_self hm d hd
      unfold setMin at hself
      split at hself
      · exact absurd hself (by simp)
      · rename_i hle
        omega
  · rename_i hone
    split at hfix
    · -- some input already has max 0: set the target max to 0
      rename_i hz
      obtain ⟨dz, hdz, hdzp⟩ := filter_pos_iff.mp hz
      rw [decide_eq_true_eq] at hdzp
      cases hm : setMax T1 0 with
      | none => rw [hm] at hfix; exact absurd hfix (by simp)
      | some T2 => ?_
      rw [hm] at hfix
      simp only [Option.some.injEq, Prod.mk.injEq] at hfix
      obtain ⟨_, hTeq⟩ := hfix
      unfold setMax at hm
      split at hm
      · exact absurd hm (by simp)
      rename_i hge
      simp only [Option.some.injEq] at hm
      have h2 : min T1.hi 0 = T.hi := by
        rw [← hTeq]
        exact congrArg Dom.hi hm
      constructor
      · intro hall
        have := hall dz hdz
        have := hw dz hdz
        omega
      · intro _
        omega
    · rename_i hz
      split at hfix
      · -- every input bound (and none at 0): set the target min to 1
        rename_i hu
        cases hm : setMin T1 1 with
        | none => rw [hm] at hfix; exact absurd hfix (by simp)
        | some T2 => ?_
        rw [hm] at hfix
        simp only [Option.some.injEq, Prod.mk.injEq] at hfix
        obtain ⟨_, hTeq⟩ := hfix
        unfold setMin at hm
        split at hm
        · exact absurd hm (by simp)
        rename_i hle
        simp only [Option.some.injEq] at hm
        have h1 : max T1.lo 1 = T.lo := by
          rw [← hTeq]
          exact congrArg Dom.lo hm
        constructor
        · intro _
          omega
        · rintro ⟨d, hd, hdh⟩
          exact absurd (filter_pos_iff.mpr ⟨d, hd, by simp [hdh]⟩) hz
      · rename_i hu
        split at hfix
        · -- target at 0 with one unbound input: that input gets max 0,
          -- impossible at a fixpoint
          rename_i hq
          cases hf : vs.findIdx? (fun d => decide (d.lo = 0)) with
          | none => rw [hf] at hfix; exact absurd hfix (by simp)
          | some k => ?_
          rw [hf] at hfix
          dsimp only at hfix
          obtain ⟨hk, hpk, _⟩ := List.findIdx?_eq_some_iff_getElem.mp hf
          rw [decide_eq_true_eq] at hpk
          have hgd : vs.getD k ⟨0, 0⟩ = vs[k] := List.getD_eq_getElem vs ⟨0, 0⟩ hk
          cases hm : setMax (vs.getD k ⟨0, 0⟩) 0 with
          | none => rw [hm] at hfix; exact absurd hfix (by simp)
          | some dk => ?_
          rw [hm] at hfix
          simp only [Option.some.injEq, Prod.mk.injEq] at hfix
          obtain ⟨hset, hTeq⟩ := hfix
          unfold setMax at hm
          split at hm
          · exact absurd hm (by simp)
          rename_i hge
          simp only [Option.some.injEq] at hm
          have hd0 : vs.getD k ⟨0, 0⟩ = dk := by
            conv_lhs => rw [← hset]
            rw [List.getD_eq_getElem _ _ (by simpa using hk)]
            simp
          have hdk2 : dk.hi = min (vs.getD k ⟨0, 0⟩).hi 0 := by rw [← hm]
          rw [hgd] at hdk2 hd0
          have hdhi : (vs[k]).hi = dk.hi := congrArg Dom.hi hd0
          have hmem : vs[k] ∈ vs := List.getElem_mem hk
          have hwk := hw _ hmem
          have hzk : ¬ (vs[k]).hi = 0 := by
            intro h0
            exact absurd (filter_pos_iff.mpr ⟨vs[k], hmem, by simp [h0]⟩) hz
          exfalso
          omega
        · -- nothing to propagate: only the unbounded counter is recorded
          rename_i hq
          simp only [Option.some.injEq, Prod.mk.injEq] at hfix
          obtain ⟨_, hTeq⟩ := hfix
          constructor
          · intro hall
            exfalso
            refine hu (filter_zero_iff.mpr ?_)
            intro d hd hpd
            rw [decide_eq_true_eq] at hpd
            have h1 := hall d hd
            have h2 := hw d hd
            omega
          · rintro ⟨d, hd, hdh⟩
            exact absurd (filter_pos_iff.mpr ⟨d, hd, by simp [hdh]⟩) hz

theorem orEq_fixpoint_facts (vs : List Dom) (T : Dom)
    (hw : ∀ d ∈ vs, 0 ≤ d.lo ∧ d.lo ≤ d.hi ∧ d.hi ≤ 1)
    (hfix : arrayBoolOrEqInitial vs T = some (vs, T)) :
    ((∀ d ∈ vs, d.hi = 0) → T.hi = 0) ∧ ((∃ d ∈ vs, d.lo = 1) → T.lo = 1) := by
  unfold arrayBoolOrEqInitial at hfix
  cases hsr : setRange T 0 1 with
  | none => rw [hsr] at hfix; exact absurd hfix (by simp)
  | some T1 => ?_
  rw [hsr] at hfix
  dsimp only at hfix
  unfold setRange at hsr
  split at hsr
  · exact absurd hsr (by simp)
  rename_i hcond
  push_neg at hcond
  obtain ⟨hc1, hc2, hc3⟩ := hcond
  simp only [Option.some.injEq] at hsr
  have hT1lo : max T.lo 0 = T1.lo := congrArg Dom.lo hsr
  have hT1hi : min T.hi 1 = T1.hi := congrArg Dom.hi hsr
  split at hfix
  · -- target max already 0: push max 0 into every input
    rename_i hzero
    cases hm : mapOpt (fun d => setMax d 0) vs with
    | none => rw [hm] at hfix; exact absurd hfix (by simp)
    | some vs2 => ?_
    rw [hm] at hfix
    simp only [Option.some.injEq, Prod.mk.injEq] at hfix
    obtain ⟨hv2, hTeq⟩ := hfix
    rw [hv2] at hm
    constructor
    · intro _
      rw [← hTeq]
      exact hzero
    · rintro ⟨d, hd, hdh⟩
      have hself := mapOpt_eq_self hm d hd
      unfold setMax at hself
      split at hself
      · exact absurd hself (by simp)
      · rename_i hge
        omega
  · rename_i hzero
    split at hfix
    · -- some input already at 1: set the target min to 1
      rename_i ho
      obtain ⟨dz, hdz, hdzp⟩ := filter_pos_iff.mp ho
      rw [decide_eq_true_eq] at hdzp
      cases hm : setMin T1 1 with
      | none => rw [hm] at hfix; exact absurd hfix (by simp)
      | some T2 => ?_
      rw [hm] at hfix
      simp only [Option.some.injEq, Prod.mk.injEq] at hfix
      obtain ⟨_, hTeq⟩ := hfix
      unfold setMin at hm
      split at hm
      · exact absurd hm (by simp)
      rename_i hle
      simp only [Option.some.injEq] at hm
      have h1 : max T1.lo 1 = T.lo := by
        rw [← hTeq]
        exact congrArg Dom.lo hm
      constructor
      · intro hall
        have := hall dz hdz
        have := hw dz hdz
        omega
      · intro _
        omega
    · rename_i ho
      split at hfix
      · -- every input bound (and none at 1): set the target max to 0
        rename_i hu
        cases hm : setMax T1 0 with
        | none => rw [hm] at hfix; exact absurd hfix (by simp)
        | some T2 => ?_
        rw [hm] at hfix
        simp only [Option.some.injEq, Prod.mk.injEq] at hfix
        obtain ⟨_, hTeq⟩ := hfix
        unfold setMax at hm
        split at hm
        · exact absurd hm (by simp)
        rename_i hge
        simp only [Option.some.injEq] at hm
        have h2 : min T1.hi 0 = T.hi := by
          rw [← hTeq]
          exact congrArg Dom.hi hm
        constructor
        · intro _
          omega
        · rintro ⟨d, hd, hdh⟩
          exact absurd (filter_pos_iff.mpr ⟨d, hd, by simp [hdh]⟩) ho
      · rename_i hu
        split at hfix
        · -- target at 1 with one unbound input: that input gets min 1,
          -- impossible at a fixpoint
          rename_i hq
          cases hf : vs.findIdx? (fun d => decide (d.hi = 1)) with
          | none => rw [hf] at hfix; exact absurd hfix (by simp)
          | some k => ?_
          rw [hf] at hfix
          dsimp only at hfix
          obtain ⟨hk, hpk, _⟩ := List.findIdx?_eq_some_iff_getElem.mp hf
          rw [decide_eq_true_eq] at hpk
          have hgd : vs.getD k ⟨0, 0⟩ = vs[k] := List.getD_eq_getElem vs ⟨0, 0⟩ hk
          cases hm : setMin (vs.getD k ⟨0, 0⟩) 1 with
          | none => rw [hm] at hfix; exact absurd hfix (by simp)
          | some dk => ?_
          rw [hm] at hfix
          simp only [Option.some.injEq, Prod.mk.injEq] at hfix
          obtain ⟨hset, hTeq⟩ := hfix
          unfold setMin at hm
          split at hm
          · exact absurd hm (by simp)
          rename_i hle
          simp only [Option.some.injEq] at hm
          have hd0 : vs.getD k ⟨0, 0⟩ = dk := by
            conv_lhs => rw [← hset]
            rw [List.getD_eq_getElem _ _ (by simpa using hk)]
            simp
          have hdk2 : dk.lo = max (vs.getD k ⟨0, 0⟩).lo 1 := by rw [← hm]
          rw [hgd] at hdk2 hd0
          have hdlo : (vs[k]).lo = dk.lo := congrArg Dom.lo hd0
          have hmem : vs[k] ∈ vs := List.getElem_mem hk
          have hwk := hw _ hmem
          have hok : ¬ (vs[k]).lo = 1 := by
            intro h0
            exact absurd (filter_pos_iff.mpr ⟨vs[k], hmem, by simp [h0]⟩) ho
          exfalso
          omega
        · -- nothing to propagate: only the unbounded counter is recorded
          rename_i hq
          simp only [Option.some.injEq, Prod.mk.injEq] at hfix
          obtain ⟨_, hTeq⟩ := hfix
          constructor
          · intro hall
            exfalso
            refine hu (filter_zero_iff.mpr ?_)
            intro d hd hpd
            rw [decide_eq_true_eq] at hpd
            have h1 := hall d hd
            have h2 := hw d hd
            omega
          · rintro ⟨d, hd, hdh⟩
            exact absurd (filter_pos_iff.mpr ⟨d, hd, by simp [hdh]⟩) ho

/-- C6.  At every propagation fixpoint (without failure) of
`ArrayBoolAndEq`: if every input's min is 1 the target's min is 1, and if
any input's max is 0 the target's max is 0; symmetrically for
`ArrayBoolOrEq`: if every input's max is 0 the target's max is 0, and if
any input's min is 1 the target's min is 1. -/
theorem bool_aggregator_fixpoint
    (va : List Dom) (Ta : Dom) (vo : List Dom) (To : Dom)
    (hwa : ∀ d ∈ va, 0 ≤ d.lo ∧ d.lo ≤ d.hi ∧ d.hi ≤ 1)
    (hwo : ∀ d ∈ vo, 0 ≤ d.lo ∧ d.lo ≤ d.hi ∧ d.hi ≤ 1)
    (hfa : arrayBoolAndEqInitial va Ta = some (va, Ta))
    (hfo : arrayBoolOrEqInitial vo To = some (vo, To)) :
    ((∀ d ∈ va, d.lo = 1) → Ta.lo = 1)
    ∧ ((∃ d ∈ va, d.hi = 0) → Ta.hi = 0)
    ∧ ((∀ d ∈ vo, d.hi = 0) → To.hi = 0)
    ∧ ((∃ d ∈ vo, d.lo = 1) → To.lo = 1) :=
  ⟨(andEq_fixpoint_facts va Ta hwa hfa).1, (andEq_fixpoint_facts va Ta hwa hfa).2,
   (orEq_fixpoint_facts vo To hwo hfo).1, (orEq_fixpoint_facts vo To hwo hfo).2⟩

/-- C6, witness for `bool_aggregator_fixpoint`: an AND with all inputs at 1
and target 1, an OR with all inputs at 0 and target 0. -/
theorem bool_aggregator_fixpoint_witness :
    arrayBoolAndEqInitial [⟨1, 1⟩, ⟨1, 1⟩, ⟨1, 1⟩] ⟨1, 1⟩
        = some ([⟨1, 1⟩, ⟨1, 1⟩, ⟨1, 1⟩], ⟨1, 1⟩)
    ∧ arrayBoolOrEqInitial [⟨0, 0⟩, ⟨0, 0⟩, ⟨0, 0⟩] ⟨0, 0⟩
        = some ([⟨0, 0⟩, ⟨0, 0⟩, ⟨0, 0⟩], ⟨0, 0⟩)
    ∧ (((∀ d ∈ [(⟨1, 1⟩ : Dom), ⟨1, 1⟩, ⟨1, 1⟩], d.lo = 1) → (⟨1, 1⟩ : Dom).lo = 1)
      ∧ ((∃ d ∈ [(⟨1, 1⟩ : Dom), ⟨1, 1⟩, ⟨1, 1⟩], d.hi = 0) → (⟨1, 1⟩ : Dom).hi = 0)
      ∧ ((∀ d ∈ [(⟨0, 0⟩ : Dom), ⟨0, 0⟩, ⟨0, 0⟩], d.hi = 0) → (⟨0, 0⟩ : Dom).hi = 0)
      ∧ ((∃ d ∈ [(⟨0, 0⟩ : Dom), ⟨0, 0⟩, ⟨0, 0⟩], d.lo = 1) → (⟨0, 0⟩ : Dom).lo = 1)) :=
  ⟨by decide, by decide,
   bool_aggregator_fixpoint [⟨1, 1⟩, ⟨1, 1⟩, ⟨1, 1⟩] ⟨1, 1⟩
     [⟨0, 0⟩, ⟨0, 0⟩, ⟨0, 0⟩] ⟨0, 0⟩ (by decide) (by decide) (by decide) (by decide)⟩

/-!
## PositiveBooleanScalProdEqVar (`expr_array.cc` lines 1822–1979)

State: the sorted coefficients, the boolean variable domains, the target,
and the four reversible cells `sum_of_bound_variables_`, `sum_of_all_variables_`,
`first_unbound_backward_`, `max_coefficient_`.
-/

/-- The reversible state of one `PositiveBooleanScalProdEqVar` constraint. -/
structure ScalProdState where
  coefs : List Int
  vars : List Dom
  targetVar : Dom
  sumOfBound : Int
  sumOfAll : Int
  firstUnboundBackward : Int
  maxCoefficient : Int
  deriving DecidableEq, Repr

/-- The backward walk of `Propagate` (lines 1902–1915): from the given index
down, skip bound variables, force a variable to 0 when its coefficient
exceeds `slack_up`, to 1 when it exceeds `slack_down`, and stop at the first
unbound coefficient that fits both slacks, recording it as the new
`max_coefficient_`; falling off the bottom leaves the index at `-1`.  The
`Nat` argument is the current index plus one. -/
def scalProdWalk (coefs : List Int) (slackUp slackDown mc : Int) :
    List Dom → Nat → Option (List Dom × Int × Int)
  | vs, 0 => some (vs, -1, mc)
  | vs, k + 1 =>
    if (vs.getD k ⟨0, 0⟩).lo = (vs.getD k ⟨0, 0⟩).hi then
      scalProdWalk coefs slackUp slackDown mc vs k
    else if coefs.getD k 0 > slackUp then
      match setRange (vs.getD k ⟨0, 0⟩) 0 0 with
      | none => none
      | some d2 => scalProdWalk coefs slackUp slackDown mc (vs.set k d2) k
    else if coefs.getD k 0 > slackDown then
      match setRange (vs.getD k ⟨0, 0⟩) 1 1 with
      | none => none
      | some d2 => scalProdWalk coefs slackUp slackDown mc (vs.set k d2) k
    else some (vs, (k : Int), coefs.getD k 0)

/-- `PositiveBooleanScalProdEqVar::Propagate` (lines 1895–1917): tighten the
target to `[sum_of_bound, sum_of_all]`, compute both slacks, and run the
backward walk only when one of the slacks is below `max_coefficient_`. -/
def scalProdPropagate (s : ScalProdState) : Option ScalProdState :=
  match setRange s.targetVar s.sumOfBound s.sumOfAll with
  | none => none
  | some T1 =>
    if s.sumOfAll - T1.lo < s.maxCoefficient
        ∨ T1.hi - s.sumOfBound < s.maxCoefficient then
      match scalProdWalk s.coefs (T1.hi - s.sumOfBound) (s.sumOfAll - T1.lo)
          s.maxCoefficient s.vars (s.firstUnboundBackward + 1).toNat with
      | none => none
      | some (vs2, last, mc2) =>
        some { s with
          targetVar := T1
          vars := vs2
          firstUnboundBackward := last
          maxCoefficient := mc2 }
    else some { s with targetVar := T1 }

/-- Modelled from the spec: the claim's description of each propagation step
— compute both slacks and then walk unconditionally from
`first_unbound_backward` downward (the description omits the
`slack < max_coef` guard the code has). -/
def scalProdPropagateSpec (s : ScalProdState) : Option ScalProdState :=
  match setRange s.targetVar s.sumOfBound s.sumOfAll with
  | none => none
  | some T1 =>
    match scalProdWalk s.coefs (T1.hi - s.sumOfBound) (s.sumOfAll - T1.lo)
        s.maxCoefficient s.vars (s.firstUnboundBackward + 1).toNat with
    | none => none
    | some (vs2, last, mc2) =>
      some { s with
        targetVar := T1
        vars := vs2
        firstUnboundBackward := last
        maxCoefficient := mc2 }

/-- C7, counterexample.  With coefficients `[3, 4, 5]`, `x₂` bound to 1 by an
outside decision (so `sum_of_bound = 5`, `sum_of_all = 12`, while
`first_unbound_backward = 2` and `max_coef = 5` are stale) and target
`[0, 100]`, both slacks equal 7 ≥ `max_coef`, so the code skips the walk and
keeps `first_unbound_backward = 2`, `max_coef = 5` — whereas the claimed
unconditional walk would skip the bound `x₂`, stop at coefficient 4 and
record `first_unbound_backward = 1`, `max_coef = 4`. -/
theorem scalprod_walk_claim_counterexample :
    scalProdPropagate ⟨[3, 4, 5], [⟨0, 1⟩, ⟨0, 1⟩, ⟨1, 1⟩], ⟨0, 100⟩, 5, 12, 2, 5⟩
      ≠ scalProdPropagateSpec
          ⟨[3, 4, 5], [⟨0, 1⟩, ⟨0, 1⟩, ⟨1, 1⟩], ⟨0, 100⟩, 5, 12, 2, 5⟩ := by
  decide

/-- C7, amended.  Each propagation step performs the claimed backward walk
whenever `slack_up < max_coef` or `slack_down < max_coef`; otherwise it
leaves the variables, `first_unbound_backward` and `max_coef` unchanged
(only the target is tightened).  When `first_unbound_backward` actually
points at an unbound variable whose coefficient is `max_coef` — the
invariant the constraint's own updates maintain — skipping the walk is
invisible and the step equals the claimed unconditional walk. -/
theorem scalprod_propagate_walk (s : ScalProdState)
    (hfub : s.firstUnboundBackward = -1
      ∨ ∃ k : Nat, s.firstUnboundBackward = (k : Int) ∧ k < s.vars.length ∧
          ¬ (s.vars.getD k ⟨0, 0⟩).lo = (s.vars.getD k ⟨0, 0⟩).hi ∧
          s.maxCoefficient = s.coefs.getD k 0) :
    scalProdPropagate s = scalProdPropagateSpec s := by
  obtain ⟨cs, vs, T, sb, sa, fub, mc⟩ := s
  unfold scalProdPropagate scalProdPropagateSpec
  cases hsr : setRange T sb sa with
  | none => rfl
  | some T1 => ?_
  dsimp only
  split
  · rfl
  · rename_i hguard
    push_neg at hguard
    obtain ⟨hg1, hg2⟩ := hguard
    rcases hfub with hfe | ⟨k, hke, hk, hunb, hmc⟩
    · simp only at hfe
      subst hfe
      simp only [scalProdWalk]
    · simp only at hke hunb hmc
      subst hke
      subst hmc
      have htn : ((k : Int) + 1).toNat = k + 1 := by omega
      rw [htn]
      simp only [scalProdWalk, if_neg hunb,
        if_neg (show ¬cs.getD k 0 > T1.hi - sb by omega),
        if_neg (show ¬cs.getD k 0 > sa - T1.lo by omega)]

/-- C7, witness for `scalprod_propagate_walk` at a fresh state: coefficients
`[3, 4, 5]`, all three variables unbound, target `[0, 100]`. -/
theorem scalprod_propagate_walk_witness :
    scalProdPropagate ⟨[3, 4, 5], [⟨0, 1⟩, ⟨0, 1⟩, ⟨0, 1⟩], ⟨0, 100⟩, 0, 12, 2, 5⟩
      = scalProdPropagateSpec
          ⟨[3, 4, 5], [⟨0, 1⟩, ⟨0, 1⟩, ⟨0, 1⟩], ⟨0, 100⟩, 0, 12, 2, 5⟩ :=
  scalprod_propagate_walk
    ⟨[3, 4, 5], [⟨0, 1⟩, ⟨0, 1⟩, ⟨0, 1⟩], ⟨0, 100⟩, 0, 12, 2, 5⟩
    (Or.inr ⟨2, by decide, by decide, by decide, by decide⟩)

/-!
## Interval variables (`part_000` of the unnamed sources: interval.cc)

`IntervalStorage` keeps reversible `[min, max]` bounds and its setters return
a `SetterStatus`; `BooleanStorage` is the three-state performed flag with
`0 = false`, `1 = true`, `2 = undecided`.  The embedding covers the ordinary
(not-in-process) setter protocol.
-/

/-- `SetterStatus` as used by `IntervalStorage` and
`BaseIntervalVar::ProcessModification`. -/
inductive SetterStatus
  | NO_OP
  | INCONSISTENT
  | PUSH
  deriving DecidableEq, Repr

/-- `IntervalVar::kMaxValidValue = kint64max >> 2` (part_000 line 260). -/
def kMaxValidValue : Int := kint64max / 4

/-- `IntervalVar::kMinValidValue = -kMaxValidValue` (part_000 line 261). -/
def kMinValidValue : Int := -kMaxValidValue

/-- A domain whose bounds lie in the valid interval range. -/
def Dom.valid (d : Dom) : Prop :=
  kMinValidValue ≤ d.lo ∧ d.lo ≤ d.hi ∧ d.hi ≤ kMaxValidValue

instance decDomValid (d : Dom) : Decidable d.valid :=
  inferInstanceAs
    (Decidable (kMinValidValue ≤ d.lo ∧ d.lo ≤ d.hi ∧ d.hi ≤ kMaxValidValue))

/-- `IntervalStorage::SetMin` (part_000 lines 746–756). -/
def storageSetMin (d : Dom) (m : Int) : SetterStatus × Dom :=
  if m > d.hi then (SetterStatus.INCONSISTENT, d)
  else if m > d.lo then (SetterStatus.PUSH, ⟨m, d.hi⟩)
  else (SetterStatus.NO_OP, d)

/-- `IntervalStorage::SetMax` (part_000 lines 771–781). -/
def storageSetMax (d : Dom) (m : Int) : SetterStatus × Dom :=
  if m < d.lo then (SetterStatus.INCONSISTENT, d)
  else if m < d.hi then (SetterStatus.PUSH, ⟨d.lo, m⟩)
  else (SetterStatus.NO_OP, d)

/-- `IntervalStorage::SetRange` (part_000 lines 796–811). -/
def storageSetRange (d : Dom) (mi ma : Int) : SetterStatus × Dom :=
  if mi > d.hi ∨ ma < d.lo then (SetterStatus.INCONSISTENT, d)
  else if mi > d.lo ∨ ma < d.hi then
    (SetterStatus.PUSH, ⟨max d.lo mi, min d.hi ma⟩)
  else (SetterStatus.NO_OP, d)

/-- `BooleanStorage::SetValue` (part_000 lines 657–668): on the undecided
status commit the new value; on a decided status, a conflicting value calls
`Fail`. -/
def boolSetValue (status : Int) (value : Bool) : Option Int :=
  if status = 2 then some (if value then 1 else 0)
  else if status ≠ (if value then 1 else 0) then none
  else some status

/-- The composite state of a `VariableDurationIntervalVar`: the three
`IntervalStorage`s (`start_`, `duration_`, `end_`) and the `performed_`
boolean storage. -/
structure VarDurState where
  start : Dom
  duration : Dom
  end_ : Dom
  performed : Int
  deriving DecidableEq, Repr

/-- The `VariableDurationIntervalVar` constructor (part_000 lines 1650–1661):
each storage is created as the intersection implied by the other two, with
plain `int64` arithmetic. -/
def varDurationInit (startMin startMax durationMin durationMax endMin endMax : Int)
    (optional : Bool) : VarDurState :=
  ⟨⟨max startMin (endMin - durationMax), min startMax (endMax - durationMin)⟩,
   ⟨max durationMin (endMin - startMax), min durationMax (endMax - startMin)⟩,
   ⟨max endMin (startMin + durationMin), min endMax (startMax + durationMax)⟩,
   if optional then 2 else 1⟩

/-- `VariableDurationIntervalVar::Push` (part_000 lines 1947–1969): if the
interval may be performed, intersect the three storages with the ranges
implied by the other two (saturating arithmetic); an inconsistent
intersection sets `performed` to false — failing only if the interval was
required to be performed. -/
def varDurPush (s : VarDurState) : Option VarDurState :=
  if s.performed ≠ 0 then
    let r1 := storageSetRange s.start (CapSub s.end_.lo s.duration.hi)
      (CapSub s.end_.hi s.duration.lo)
    if r1.1 = SetterStatus.INCONSISTENT then
      match boolSetValue s.performed false with
      | none => none
      | some p => some { s with performed := p }
    else
      let r2 := storageSetRange s.duration (CapSub s.end_.lo r1.2.hi)
        (CapSub s.end_.hi r1.2.lo)
      if r2.1 = SetterStatus.INCONSISTENT then
        match boolSetValue s.performed false with
        | none => none
        | some p => some { s with start := r1.2, performed := p }
      else
        let r3 := storageSetRange s.end_ (CapAdd r1.2.lo r2.2.lo)
          (CapAdd r1.2.hi r2.2.hi)
        if r3.1 = SetterStatus.INCONSISTENT then
          match boolSetValue s.performed false with
          | none => none
          | some p => some { s with start := r1.2, duration := r2.2, performed := p }
        else
          some { s with start := r1.2, duration := r2.2, end_ := r3.2 }
  else some s

/-- `VariableDurationIntervalVar::SetStartMin` (part_000 lines 1675–1685),
out-of-process path: a silent no-op when the interval cannot be performed;
otherwise `ProcessModification` of the storage setter — `INCONSISTENT`
becomes `SetPerformed(false)`, `PUSH` runs the interval's `Push`. -/
def varDurSetStartMin (s : VarDurState) (m : Int) : Option VarDurState :=
  if s.performed ≠ 0 then
    match storageSetMin s.start m with
    | (SetterStatus.NO_OP, _) => some s
    | (SetterStatus.INCONSISTENT, _) =>
      match boolSetValue s.performed false with
      | none => none
      | some p => varDurPush { s with performed := p }
    | (SetterStatus.PUSH, d2) => varDurPush { s with start := d2 }
  else some s

/-- `VariableDurationIntervalVar::SetStartMax` (part_000 lines 1687–1697). -/
def varDurSetStartMax (s : VarDurState) (m : Int) : Option VarDurState :=
  if s.performed ≠ 0 then
    match storageSetMax s.start m with
    | (SetterStatus.NO_OP, _) => some s
    | (SetterStatus.INCONSISTENT, _) =>
      match boolSetValue s.performed false with
      | none => none
      | some p => varDurPush { s with performed := p }
    | (SetterStatus.PUSH, d2) => varDurPush { s with start := d2 }
  else some s

/-- `VariableDurationIntervalVar::SetDurationMin` (part_000 lines 1745–1755). -/
def varDurSetDurationMin (s : VarDurState) (m : Int) : Option VarDurState :=
  if s.performed ≠ 0 then
    match storageSetMin s.duration m with
    | (SetterStatus.NO_OP, _) => some s
    | (SetterStatus.INCONSISTENT, _) =>
      match boolSetValue s.performed false with
      | none => none
      | some p => varDurPush { s with performed := p }
    | (SetterStatus.PUSH, d2) => varDurPush { s with duration := d2 }
  else some s

/-- `VariableDurationIntervalVar::SetDurationMax` (part_000 lines 1757–1767). -/
def varDurSetDurationMax (s : VarDurState) (m : Int) : Option VarDurState :=
  if s.performed ≠ 0 then
    match storageSetMax s.duration m with
    | (SetterStatus.NO_OP, _) => some s
    | (SetterStatus.INCONSISTENT, _) =>
      match boolSetValue s.performed false with
      | none => none
      | some p => varDurPush { s with performed := p }
    | (SetterStatus.PUSH, d2) => varDurPush { s with duration := d2 }
  else some s

/-- `VariableDurationIntervalVar::SetEndMin` (part_000 lines 1815–1825). -/
def varDurSetEndMin (s : VarDurState) (m : Int) : Option VarDurState :=
  if s.performed ≠ 0 then
    match storageSetMin s.end_ m with
    | (SetterStatus.NO_OP, _) => some s
    | (SetterStatus.INCONSISTENT, _) =>
      match boolSetValue s.performed false with
      | none => none
      | some p => varDurPush { s with performed := p }
    | (SetterStatus.PUSH, d2) => varDurPush { s with end_ := d2 }
  else some s

/-- `VariableDurationIntervalVar::SetEndMax` (part_000 lines 1827–1837). -/
def varDurSetEndMax (s : VarDurState) (m : Int) : Option VarDurState :=
  if s.performed ≠ 0 then
    match storageSetMax s.end_ m with
    | (SetterStatus.NO_OP, _) => some s
    | (SetterStatus.INCONSISTENT, _) =>
      match boolSetValue s.performed false with
      | none => none
      | some p => varDurPush { s with performed := p }
    | (SetterStatus.PUSH, d2) => varDurPush { s with end_ := d2 }
  else some s

/-- If `IntervalStorage::SetRange` does not report `INCONSISTENT` and leaves
the domain unchanged, the requested range already contained the domain. -/
theorem storageSetRange_fix {d d2 : Dom} {mi ma : Int} {st : SetterStatus}
    (h : storageSetRange d mi ma = (st, d2))
    (hne : st ≠ SetterStatus.INCONSISTENT) (heq : d2 = d) :
    mi ≤ d.lo ∧ d.hi ≤ ma := by
  unfold storageSetRange at h
  split at h
  · exact absurd (congrArg Prod.fst h).symm hne
  · split at h
    · have h2 : (⟨max d.lo mi, min d.hi ma⟩ : Dom) = d2 := congrArg Prod.snd h
      rw [heq] at h2
      have hlo : max d.lo mi = d.lo := congrArg Dom.lo h2
      have hhi : min d.hi ma = d.hi := congrArg Dom.hi h2
      omega
    · rename_i hc1 hc2
      omega

/-- `BooleanStorage::SetValue(false)` succeeds only from the undecided
status, committing `0`. -/
theorem boolSetValue_false_of_perf {q p : Int} (hperf : q = 1 ∨ q = 2)
    (hp : boolSetValue q false = some p) : q = 2 ∧ p = 0 := by
  rcases hperf with h | h
  · subst h
    exfalso
    norm_num [boolSetValue] at hp
    exact Option.noConfusion hp
  · subst h
    refine ⟨rfl, ?_⟩
    norm_num [boolSetValue] at hp
    omega

/-- **C8.** For every `VariableDurationIntervalVar` that may still be
performed (`performed ∈ {1, 2}`) whose start and duration bounds are valid
interval values, at a `Push` fixpoint `start.min + duration.min ≤ end.min`
and `start.max + duration.max ≥ end.max`; when `performed` is already false
every bound-setter on start, duration and end is a silent no-op (it never
fails); and the non-optional interval with start in `[0, 10]`, duration in
`[3, 5]`, end in `[0, 12]` is constructed with start in `[0, 9]`, duration
in `[3, 5]`, end in `[3, 12]`, a state `Push` leaves unchanged. -/
theorem interval_coherence :
    (∀ s : VarDurState, s.performed = 1 ∨ s.performed = 2 →
      s.start.valid → s.duration.valid → varDurPush s = some s →
      s.start.lo + s.duration.lo ≤ s.end_.lo ∧
        s.start.hi + s.duration.hi ≥ s.end_.hi)
    ∧ (∀ (s : VarDurState) (m : Int), s.performed = 0 →
        varDurSetStartMin s m = some s ∧ varDurSetStartMax s m = some s ∧
        varDurSetDurationMin s m = some s ∧ varDurSetDurationMax s m = some s ∧
        varDurSetEndMin s m = some s ∧ varDurSetEndMax s m = some s)
    ∧ varDurationInit 0 10 3 5 0 12 false = ⟨⟨0, 9⟩, ⟨3, 5⟩, ⟨3, 12⟩, 1⟩
    ∧ varDurPush ⟨⟨0, 9⟩, ⟨3, 5⟩, ⟨3, 12⟩, 1⟩
        = some ⟨⟨0, 9⟩, ⟨3, 5⟩, ⟨3, 12⟩, 1⟩ := by
  refine ⟨?_, ?_, by decide, by decide⟩
  · intro s hperf hvs hvd hfix
    have hne0 : s.performed ≠ 0 := by rcases hperf with h | h <;> omega
    unfold varDurPush at hfix
    rw [if_pos hne0] at hfix
    dsimp only at hfix
    cases h1 : storageSetRange s.start (CapSub s.end_.lo s.duration.hi)
        (CapSub s.end_.hi s.duration.lo) with
    | mk st1 d1 =>
    rw [h1] at hfix
    dsimp only at hfix
    by_cases hst1 : st1 = SetterStatus.INCONSISTENT
    · rw [if_pos hst1] at hfix
      cases hb : boolSetValue s.performed false with
      | none =>
        rw [hb] at hfix
        exact Option.noConfusion hfix
      | some p =>
        rw [hb] at hfix
        dsimp only at hfix
        have hq := boolSetValue_false_of_perf hperf hb
        have h3 : p = s.performed := congrArg VarDurState.performed (Option.some.inj hfix)
        omega
    · rw [if_neg hst1] at hfix
      cases h2 : storageSetRange s.duration (CapSub s.end_.lo d1.hi)
          (CapSub s.end_.hi d1.lo) with
      | mk st2 d2 =>
      rw [h2] at hfix
      dsimp only at hfix
      by_cases hst2 : st2 = SetterStatus.INCONSISTENT
      · rw [if_pos hst2] at hfix
        cases hb : boolSetValue s.performed false with
        | none =>
          rw [hb] at hfix
          exact Option.noConfusion hfix
        | some p =>
          rw [hb] at hfix
          dsimp only at hfix
          have hq := boolSetValue_false_of_perf hperf hb
          have h3 : p = s.performed := congrArg VarDurState.performed (Option.some.inj hfix)
          omega
      · rw [if_neg hst2] at hfix
        cases h3 : storageSetRange s.end_ (CapAdd d1.lo d2.lo)
            (CapAdd d1.hi d2.hi) with
        | mk st3 d3 =>
        rw [h3] at hfix
        dsimp only at hfix
        by_cases hst3 : st3 = SetterStatus.INCONSISTENT
        · rw [if_pos hst3] at hfix
          cases hb : boolSetValue s.performed false with
          | none =>
            rw [hb] at hfix
            exact Option.noConfusion hfix
          | some p =>
            rw [hb] at hfix
            dsimp only at hfix
            have hq := boolSetValue_false_of_perf hperf hb
            have hp3 : p = s.performed := congrArg VarDurState.performed (Option.some.inj hfix)
            omega
        · rw [if_neg hst3] at hfix
          have hrec := Option.some.inj hfix
          have hs1 : d1 = s.start := congrArg VarDurState.start hrec
          have hs2 : d2 = s.duration := congrArg VarDurState.duration hrec
          have hs3 : d3 = s.end_ := congrArg VarDurState.end_ hrec
          rw [hs1, hs2] at h3
          have hb := storageSetRange_fix h3 hst3 hs3
          unfold Dom.valid at hvs hvd
          have hK : kMaxValidValue = 2305843009213693951 := by
            norm_num [kMaxValidValue, kint64max]
          have hKm : kMinValidValue = -2305843009213693951 := by
            norm_num [kMinValidValue, kMaxValidValue, kint64max]
          have hmax : kint64max = 9223372036854775807 := by norm_num [kint64max]
          have hmin : kint64min = -9223372036854775808 := by norm_num [kint64min]
          rw [CapAdd_eq (by omega) (by omega), CapAdd_eq (by omega) (by omega)] at hb
          exact ⟨hb.1, hb.2⟩
  · intro s m h0
    have hcond : ¬s.performed ≠ 0 := by omega
    refine ⟨?_, ?_, ?_, ?_, ?_, ?_⟩
    · unfold varDurSetStartMin
      rw [if_neg hcond]
    · unfold varDurSetStartMax
      rw [if_neg hcond]
    · unfold varDurSetDurationMin
      rw [if_neg hcond]
    · unfold varDurSetDurationMax
      rw [if_neg hcond]
    · unfold varDurSetEndMin
      rw [if_neg hcond]
    · unfold varDurSetEndMax
      rw [if_neg hcond]

/-- The interval-coherence theorem evaluated at the specification's S3
scenario state and at an unperformed interval. -/
theorem interval_coherence_witness :
    ((⟨⟨0, 9⟩, ⟨3, 5⟩, ⟨3, 12⟩, 1⟩ : VarDurState).start.lo
        + (⟨⟨0, 9⟩, ⟨3, 5⟩, ⟨3, 12⟩, 1⟩ : VarDurState).duration.lo
      ≤ (⟨⟨0, 9⟩, ⟨3, 5⟩, ⟨3, 12⟩, 1⟩ : VarDurState).end_.lo) ∧
    varDurSetEndMin (⟨⟨0, 9⟩, ⟨3, 5⟩, ⟨3, 12⟩, 0⟩ : VarDurState) 100
      = some (⟨⟨0, 9⟩, ⟨3, 5⟩, ⟨3, 12⟩, 0⟩ : VarDurState) :=
  ⟨(interval_coherence.1 ⟨⟨0, 9⟩, ⟨3, 5⟩, ⟨3, 12⟩, 1⟩ (Or.inl rfl)
      (by decide) (by decide) (by decide)).1,
   (interval_coherence.2.1 ⟨⟨0, 9⟩, ⟨3, 5⟩, ⟨3, 12⟩, 0⟩ 100 rfl).2.2.2.2.1⟩

/-- The state of a `FixedDurationIntervalVar` (part_000 lines 935–999): the
`start_` interval storage, the immutable `duration_` and the `performed_`
boolean storage. -/
structure FixedDurState where
  start : Dom
  duration : Int
  performed : Int
  deriving DecidableEq, Repr

/-- `FixedDurationIntervalVar::SetPerformed` (part_000 lines 1133–1139),
out-of-process path: `BooleanStorage::SetValue`; `Push` only enqueues the
variable. -/
def fdSetPerformed (s : FixedDurState) (val : Bool) : Option FixedDurState :=
  match boolSetValue s.performed val with
  | none => none
  | some p => some { s with performed := p }

/-- `FixedDurationIntervalVar::SetStartMin` (part_000 lines 1039–1049),
out-of-process path: guarded by `performed_.MayBeTrue()`, then
`ProcessModification(start_.SetMin(m))`. -/
def fdSetStartMin (s : FixedDurState) (m : Int) : Option FixedDurState :=
  if s.performed ≠ 0 then
    match storageSetMin s.start m with
    | (SetterStatus.NO_OP, _) => some s
    | (SetterStatus.INCONSISTENT, _) => fdSetPerformed s false
    | (SetterStatus.PUSH, d2) => some { s with start := d2 }
  else some s

/-- `FixedDurationIntervalVar::SetStartMax` (part_000 lines 1051–1061). -/
def fdSetStartMax (s : FixedDurState) (m : Int) : Option FixedDurState :=
  if s.performed ≠ 0 then
    match storageSetMax s.start m with
    | (SetterStatus.NO_OP, _) => some s
    | (SetterStatus.INCONSISTENT, _) => fdSetPerformed s false
    | (SetterStatus.PUSH, d2) => some { s with start := d2 }
  else some s

/-- `FixedDurationIntervalVar::SetStartRange` (part_000 lines 1063–1073). -/
def fdSetStartRange (s : FixedDurState) (mi ma : Int) : Option FixedDurState :=
  if s.performed ≠ 0 then
    match storageSetRange s.start mi ma with
    | (SetterStatus.NO_OP, _) => some s
    | (SetterStatus.INCONSISTENT, _) => fdSetPerformed s false
    | (SetterStatus.PUSH, d2) => some { s with start := d2 }
  else some s

/-- `FixedDurationIntervalVar::SetDurationMin` (part_000 lines 1085–1089):
no `MayBeTrue` guard; a request above the fixed duration unperforms the
interval. -/
def fdSetDurationMin (s : FixedDurState) (m : Int) : Option FixedDurState :=
  if m > s.duration then fdSetPerformed s false else some s

/-- `FixedDurationIntervalVar::SetDurationMax` (part_000 lines 1091–1095). -/
def fdSetDurationMax (s : FixedDurState) (m : Int) : Option FixedDurState :=
  if m < s.duration then fdSetPerformed s false else some s

/-- `FixedDurationIntervalVar::SetDurationRange` (part_000 lines 1097–1101). -/
def fdSetDurationRange (s : FixedDurState) (mi ma : Int) : Option FixedDurState :=
  if mi > s.duration ∨ ma < s.duration ∨ mi > ma then fdSetPerformed s false
  else some s

/-- `FixedDurationIntervalVar::SetEndMin` (part_000 lines 1113–1115):
delegates to `SetStartMin(CapSub(m, duration_))`. -/
def fdSetEndMin (s : FixedDurState) (m : Int) : Option FixedDurState :=
  fdSetStartMin s (CapSub m s.duration)

/-- `FixedDurationIntervalVar::SetEndMax` (part_000 lines 1117–1119). -/
def fdSetEndMax (s : FixedDurState) (m : Int) : Option FixedDurState :=
  fdSetStartMax s (CapSub m s.duration)

/-- `FixedDurationIntervalVar::SetEndRange` (part_000 lines 1121–1123). -/
def fdSetEndRange (s : FixedDurState) (mi ma : Int) : Option FixedDurState :=
  fdSetStartRange s (CapSub mi s.duration) (CapSub ma s.duration)

/-- `FixedDurationIntervalVar::StartMin` (part_000 lines 1029–1032): the
`CHECK(performed_.MayBeTrue())` assertion is modelled as `none`. -/
def fdStartMin (s : FixedDurState) : Option Int :=
  if s.performed ≠ 0 then some s.start.lo else none

/-- `FixedDurationIntervalVar::StartMax` (part_000 lines 1034–1037). -/
def fdStartMax (s : FixedDurState) : Option Int :=
  if s.performed ≠ 0 then some s.start.hi else none

/-- `FixedDurationIntervalVar::EndMin` (part_000 lines 1103–1106): plain
(non-saturating) `start_.Min() + duration_`. -/
def fdEndMin (s : FixedDurState) : Option Int :=
  if s.performed ≠ 0 then some (s.start.lo + s.duration) else none

/-- `FixedDurationIntervalVar::EndMax` (part_000 lines 1108–1111):
saturating `CapAdd(start_.Max(), duration_)`. -/
def fdEndMax (s : FixedDurState) : Option Int :=
  if s.performed ≠ 0 then some (CapAdd s.start.hi s.duration) else none

/-- Unperforming an interval whose status is still undecided commits
`performed = 0` without failing. -/
theorem fdSetPerformed_undecided {s : FixedDurState} (h : s.performed = 2) :
    fdSetPerformed s false = some { s with performed := 0 } := by
  unfold fdSetPerformed boolSetValue
  rw [h]
  norm_num

/-- Unperforming an interval that must be performed fails. -/
theorem fdSetPerformed_required {s : FixedDurState} (h : s.performed = 1) :
    fdSetPerformed s false = none := by
  unfold fdSetPerformed boolSetValue
  rw [h]
  norm_num

/-- **C9.** On a `FixedDurationIntervalVar` whose performed status is still
undecided, none of the nine bound-setters on start, duration or end calls
`Fail`: a contradicting bound instead forces `performed` to false; the same
contradiction fails only when the interval is already required to be
performed. -/
theorem optional_interval_setters_never_fail :
    (∀ (s : FixedDurState) (m mi ma : Int), s.performed = 2 →
      (fdSetStartMin s m).isSome = true ∧ (fdSetStartMax s m).isSome = true ∧
      (fdSetStartRange s mi ma).isSome = true ∧
      (fdSetDurationMin s m).isSome = true ∧
      (fdSetDurationMax s m).isSome = true ∧
      (fdSetDurationRange s mi ma).isSome = true ∧
      (fdSetEndMin s m).isSome = true ∧ (fdSetEndMax s m).isSome = true ∧
      (fdSetEndRange s mi ma).isSome = true)
    ∧ (∀ (s : FixedDurState) (m : Int), s.performed = 2 → m > s.start.hi →
        fdSetStartMin s m = some { s with performed := 0 })
    ∧ (∀ (s : FixedDurState) (m : Int), s.performed = 2 → m > s.duration →
        fdSetDurationMin s m = some { s with performed := 0 })
    ∧ (∀ (s : FixedDurState) (m : Int), s.performed = 1 → m > s.start.hi →
        fdSetStartMin s m = none)
    ∧ (∀ (s : FixedDurState) (m : Int), s.performed = 1 → m > s.duration →
        fdSetDurationMin s m = none) := by
  refine ⟨?_, ?_, ?_, ?_, ?_⟩
  · intro s m mi ma h2
    have hne : s.performed ≠ 0 := by omega
    have hmin : ∀ k : Int, (fdSetStartMin s k).isSome = true := by
      intro k
      unfold fdSetStartMin
      rw [if_pos hne]
      rcases hst : storageSetMin s.start k with ⟨st, d⟩
      cases st
      · rfl
      · show (fdSetPerformed s false).isSome = true
        rw [fdSetPerformed_undecided h2]
        rfl
      · rfl
    have hmax : ∀ k : Int, (fdSetStartMax s k).isSome = true := by
      intro k
      unfold fdSetStartMax
      rw [if_pos hne]
      rcases hst : storageSetMax s.start k with ⟨st, d⟩
      cases st
      · rfl
      · show (fdSetPerformed s false).isSome = true
        rw [fdSetPerformed_undecided h2]
        rfl
      · rfl
    have hrange : ∀ k l : Int, (fdSetStartRange s k l).isSome = true := by
      intro k l
      unfold fdSetStartRange
      rw [if_pos hne]
      rcases hst : storageSetRange s.start k l with ⟨st, d⟩
      cases st
      · rfl
      · show (fdSetPerformed s false).isSome = true
        rw [fdSetPerformed_undecided h2]
        rfl
      · rfl
    have hdmin : (fdSetDurationMin s m).isSome = true := by
      unfold fdSetDurationMin
      split
      · rw [fdSetPerformed_undecided h2]
        rfl
      · rfl
    have hdmax : (fdSetDurationMax s m).isSome = true := by
      unfold fdSetDurationMax
      split
      · rw [fdSetPerformed_undecided h2]
        rfl
      · rfl
    have hdrange : (fdSetDurationRange s mi ma).isSome = true := by
      unfold fdSetDurationRange
      split
      · rw [fdSetPerformed_undecided h2]
        rfl
      · rfl
    exact ⟨hmin m, hmax m, hrange mi ma, hdmin, hdmax, hdrange,
      hmin (CapSub m s.duration), hmax (CapSub m s.duration),
      hrange (CapSub mi s.duration) (CapSub ma s.duration)⟩
  · intro s m h2 hm
    unfold fdSetStartMin
    rw [if_pos (by omega)]
    have hst : storageSetMin s.start m = (SetterStatus.INCONSISTENT, s.start) := by
      unfold storageSetMin
      rw [if_pos hm]
    rw [hst]
    exact fdSetPerformed_undecided h2
  · intro s m h2 hm
    unfold fdSetDurationMin
    rw [if_pos hm]
    exact fdSetPerformed_undecided h2
  · intro s m h1 hm
    unfold fdSetStartMin
    rw [if_pos (by omega)]
    have hst : storageSetMin s.start m = (SetterStatus.INCONSISTENT, s.start) := by
      unfold storageSetMin
      rw [if_pos hm]
    rw [hst]
    exact fdSetPerformed_required h1
  · intro s m h1 hm
    unfold fdSetDurationMin
    rw [if_pos hm]
    exact fdSetPerformed_required h1

/-- The optional-setters theorem evaluated on an undecided and on a
required interval with start in `[0, 5]` and duration `3`. -/
theorem optional_interval_setters_never_fail_witness :
    (fdSetEndMin ⟨⟨0, 5⟩, 3, 2⟩ 100).isSome = true ∧
    fdSetStartMin ⟨⟨0, 5⟩, 3, 2⟩ 10 = some ⟨⟨0, 5⟩, 3, 0⟩ ∧
    fdSetStartMin ⟨⟨0, 5⟩, 3, 1⟩ 10 = none :=
  ⟨(optional_interval_setters_never_fail.1 ⟨⟨0, 5⟩, 3, 2⟩ 100 0 1
      rfl).2.2.2.2.2.2.1,
   optional_interval_setters_never_fail.2.1 ⟨⟨0, 5⟩, 3, 2⟩ 10 rfl (by decide),
   optional_interval_setters_never_fail.2.2.2.1 ⟨⟨0, 5⟩, 3, 1⟩ 10 rfl
     (by decide)⟩

/-- **C10.** The `FixedDurationIntervalVar` accessors `StartMin`, `StartMax`,
`EndMin` and `EndMax` require that the interval may still be performed: on
an interval already unperformed they hit the `CHECK` (modelled as `none`)
instead of returning a value; otherwise they return the stored bounds, with
`EndMin = start.Min() + duration` (plain) and
`EndMax = CapAdd(start.Max(), duration)`. -/
theorem interval_accessors_check :
    (∀ s : FixedDurState, s.performed = 0 →
      fdStartMin s = none ∧ fdStartMax s = none ∧
      fdEndMin s = none ∧ fdEndMax s = none)
    ∧ (∀ s : FixedDurState, s.performed ≠ 0 →
      fdStartMin s = some s.start.lo ∧ fdStartMax s = some s.start.hi ∧
      fdEndMin s = some (s.start.lo + s.duration) ∧
      fdEndMax s = some (CapAdd s.start.hi s.duration)) := by
  constructor
  · intro s h0
    refine ⟨?_, ?_, ?_, ?_⟩ <;>
      simp [fdStartMin, fdStartMax, fdEndMin, fdEndMax, h0]
  · intro s h
    refine ⟨?_, ?_, ?_, ?_⟩ <;>
      simp [fdStartMin, fdStartMax, fdEndMin, fdEndMax, h]

/-- The accessor theorem evaluated on an unperformed and on a performed
interval. -/
theorem interval_accessors_check_witness :
    fdStartMin ⟨⟨0, 5⟩, 3, 0⟩ = none ∧ fdEndMin ⟨⟨0, 5⟩, 3, 1⟩ = some 3 :=
  ⟨(interval_accessors_check.1 ⟨⟨0, 5⟩, 3, 0⟩ rfl).1,
   (interval_accessors_check.2 ⟨⟨0, 5⟩, 3, 1⟩ (by decide)).2.2.1⟩

end OrTools
